import Mathlib

/-!
Verification of the Graph IR and Pattern-Matching Engine of
`onnxruntime/python/tools/transformers/onnx_model.py`.

The Python module manipulates an ONNX model in memory: a primary graph plus
the nested subgraphs discovered inside control-flow node attributes, all
cached in `self.all_graphs` after the first call to `graphs()`.  We embed a
session state as the discovered graph collection (primary graph first),
which is exactly the list the Python code iterates and mutates in place;
none of the modelled operations re-runs subgraph discovery, so the cached
list is an invariant of a session.

Numeric tensor payloads are embedded as exact fractions (an integer
numerator with a natural denominator, compared by cross multiplication)
rather than IEEE floats; the constants the module manipulates (scalar
attribute values, tolerance bounds) are all exactly representable.

Functions that can raise in Python (unguarded dictionary/list indexing,
dereferencing a `None` graph lookup, a failed assertion) are embedded with
`Option`, `none` standing for the raised exception.
-/

namespace OnnxIR

/-- Exact fraction standing for a Python float scalar: numerator and
(positive, in every value we build) denominator.  Kept unnormalised so
that every operation is plain integer arithmetic. -/
structure PyNum where
  num : Int
  den : Nat
deriving DecidableEq

/-- Difference of two fractions by cross multiplication
(models float subtraction). -/
def PyNum.sub (a b : PyNum) : PyNum :=
  ⟨a.num * (b.den : Int) - b.num * (a.den : Int), a.den * b.den⟩

/-- Absolute value of a fraction (models `abs`). -/
def PyNum.abs (a : PyNum) : PyNum :=
  ⟨|a.num|, a.den⟩

/-- Strict comparison of two fractions by cross multiplication
(models `<` on floats; denominators of the values we build are positive). -/
def PyNum.lt (a b : PyNum) : Bool :=
  a.num * (b.den : Int) < b.num * (a.den : Int)

/-- Attribute payload tag.  A node attribute is either a nested graph, a
list of nested graphs, a tensor (whose flat data we keep), or anything
else.  The operations verified here only ever test the tag and read tensor
payloads; nested-graph payloads live in the discovered graph collection of
the session state (see `OModel`). -/
inductive AttrKind where
  | graphK : AttrKind
  | graphsK : AttrKind
  | tensorK : List PyNum → AttrKind
  | otherK : AttrKind
deriving DecidableEq

/-- Node attribute: a name and a tagged payload
(models `onnx.AttributeProto`). -/
structure Attr where
  name : String
  kind : AttrKind
deriving DecidableEq

/-- Operator invocation: name, operator type, ordered input and output
value names, attributes (models `onnx.NodeProto`; Python compares nodes by
protobuf value equality, which `DecidableEq` mirrors). -/
structure Node where
  name : String
  op_type : String
  input : List String
  output : List String
  attrs : List Attr
deriving DecidableEq

/-- Named constant tensor bound into a graph scope
(models `onnx.TensorProto`, keeping the name and flat data). -/
structure Tensor where
  name : String
  data : List PyNum
deriving DecidableEq

/-- Graph-level input/output declaration (models `onnx.ValueInfoProto`;
only the name is consulted by the verified operations). -/
structure VInfo where
  name : String
deriving DecidableEq

/-- One scope of the IR: ordered node sequence plus declared inputs,
outputs and initializers (models `onnx.GraphProto`). -/
structure Graph where
  name : String
  node : List Node
  input : List VInfo
  output : List VInfo
  initializer : List Tensor
deriving DecidableEq

/-- Session state of the `OnnxModel` wrapper: the discovered graph
collection (primary graph first, then the nested graphs in discovery
order, i.e. the cached `self.all_graphs`), and the name-minting ledger
`self._node_name_suffix`. -/
structure OModel where
  primary : Graph
  subgraphs : List Graph
  ledger : List (String × Int)
deriving DecidableEq

/-- Discovered graph collection, primary first (models `self.graphs()`,
whose cached result the mutating operations iterate). -/
def OModel.graphs (m : OModel) : List Graph :=
  m.primary :: m.subgraphs

/-- Every node of every discovered graph, in graph order
(models `self.nodes()`). -/
def OModel.nodes (m : OModel) : List Node :=
  m.graphs.flatMap (fun g => g.node)

/-- Consumer index: value name to the consuming nodes, one entry per input
occurrence in scan order (models `self.input_name_to_nodes()[x]`; the
Python dictionary appends the node once per matching input slot). -/
def inputNameToNodes (m : OModel) (x : String) : List Node :=
  m.nodes.flatMap (fun nd => (nd.input.filter (fun i => i = x)).map (fun _ => nd))

/-- Producer index: value name to the producing node (models
`self.output_name_to_node()[x]`; dictionary insertion lets the last
scanned producer win, hence the reversed search). -/
def outputNameToNode (m : OModel) (x : String) : Option Node :=
  m.nodes.reverse.find? (fun nd => nd.output.contains x)

/-- First discovered graph whose node list contains the given node, by
protobuf value equality (models `self.get_graph_by_node`). -/
def get_graph_by_node (m : OModel) (nd : Node) : Option Graph :=
  m.graphs.find? (fun g => g.node.contains nd)

/-- First discovered graph with the given name
(models `self.get_graph_by_name`). -/
def get_graph_by_name (m : OModel) (gname : String) : Option Graph :=
  m.graphs.find? (fun g => g.name = gname)

/-- Index of the first node of the graph consuming one of the given output
names, or the node count when none does
(models `self.get_topological_insert_id`). -/
def get_topological_insert_id (g : Graph) (outputs : List String) : Nat :=
  g.node.findIdx (fun nd => nd.input.any (fun i => outputs.contains i))

/-- Removal of the first value-equal occurrence of a node from every
discovered graph that holds one (models `self.remove_node`, which scans
`self.graphs()` and calls `graph.node.remove(node)` on each match). -/
def remove_node (m : OModel) (nd : Node) : OModel :=
  { m with
    primary := { m.primary with node := m.primary.node.erase nd }
    subgraphs := m.subgraphs.map (fun g => { g with node := g.node.erase nd }) }

/-- Iterated removal (models `self.remove_nodes`). -/
def remove_nodes (m : OModel) (nds : List Node) : OModel :=
  nds.foldl remove_node m

/-- Replacement of the first subgraph satisfying the predicate, applying
the update to it alone (the Python code mutates the single graph object
returned by `get_graph_by_name`); `none` when no subgraph matches. -/
def updateFirstSub (p : Graph → Bool) (f : Graph → Graph) :
    List Graph → Option (List Graph)
  | [] => none
  | g :: rest =>
    if p g then some (f g :: rest)
    else (updateFirstSub p f rest).map (fun l => g :: l)

/-- Node insertion (models `self.add_node`): appended to the primary graph
when no target graph name is given or it equals the primary graph's name;
otherwise inserted into the first graph of that name at the topological
insert index.  `none` models the `AttributeError` raised when
`get_graph_by_name` returns `None` and the code dereferences it. -/
def add_node (m : OModel) (nd : Node) (graph_name : Option String) : Option OModel :=
  match graph_name with
  | none => some { m with primary := { m.primary with node := m.primary.node ++ [nd] } }
  | some gn =>
    if gn = m.primary.name then
      some { m with primary := { m.primary with node := m.primary.node ++ [nd] } }
    else
      (updateFirstSub (fun g => g.name = gn)
        (fun g => { g with
          node := g.node.insertIdx (get_topological_insert_id g nd.output) nd })
        m.subgraphs).map (fun l => { m with subgraphs := l })

/-- Initializer insertion (models `self.add_initializer`); `none` models
the `AttributeError` on an unknown graph name. -/
def add_initializer (m : OModel) (t : Tensor) (graph_name : Option String) : Option OModel :=
  match graph_name with
  | none => some { m with primary := { m.primary with initializer := m.primary.initializer ++ [t] } }
  | some gn =>
    if gn = m.primary.name then
      some { m with primary := { m.primary with initializer := m.primary.initializer ++ [t] } }
    else
      (updateFirstSub (fun g => g.name = gn)
        (fun g => { g with initializer := g.initializer ++ [t] })
        m.subgraphs).map (fun l => { m with subgraphs := l })

/-- Graph input insertion (models `self.add_input`); `none` models the
`AttributeError` on an unknown graph name. -/
def add_input (m : OModel) (v : VInfo) (graph_name : Option String) : Option OModel :=
  match graph_name with
  | none => some { m with primary := { m.primary with input := m.primary.input ++ [v] } }
  | some gn =>
    if gn = m.primary.name then
      some { m with primary := { m.primary with input := m.primary.input ++ [v] } }
    else
      (updateFirstSub (fun g => g.name = gn)
        (fun g => { g with input := g.input ++ [v] })
        m.subgraphs).map (fun l => { m with subgraphs := l })

/-- Rewrite of every input slot of a node holding the old name
(models the static method `replace_node_input`; the `isinstance` string
assertions hold by typing). -/
def replace_node_input (nd : Node) (old_name new_name : String) : Node :=
  { nd with input := nd.input.map (fun i => if i = old_name then new_name else i) }

/-- Rewrite of every output slot of a node holding the old name
(models the static method `replace_node_output`). -/
def replace_node_output (nd : Node) (old_name new_name : String) : Node :=
  { nd with output := nd.output.map (fun o => if o = old_name then new_name else o) }

/-- First initializer of any discovered graph with the given name
(models `self.get_initializer`). -/
def get_initializer (m : OModel) (iname : String) : Option Tensor :=
  (m.graphs.flatMap (fun g => g.initializer)).find? (fun t => t.name = iname)

/-- Nodes of the given operator type across the discovered graphs
(models `self.get_nodes_by_op_type`). -/
def get_nodes_by_op_type (m : OModel) (t : String) : List Node :=
  m.nodes.filter (fun nd => nd.op_type = t)

/-! Pattern matching.  The producer index is passed explicitly, as the
Python methods accept an `output_name_to_node` dictionary (built by
`outputNameToNode` when absent).  The `return_indice` out-parameter of
`match_parent` only reports matched input positions and never influences
the returned nodes, so it is not threaded through the embedding. -/

/-- Scan of a node's inputs, left to right, for the first producing parent
of the wanted operator type not in the exclusion list; returns the parent
and the input position (models `self.match_first_parent`). -/
def match_first_parent (omap : String → Option Node) (nd : Node)
    (parent_op_type : String) (exclude : List Node) : Option (Node × Nat) :=
  (nd.input.enum.find? (fun p =>
    match omap p.2 with
    | some parent => parent.op_type = parent_op_type && !(exclude.contains parent)
    | none => false)).map (fun p =>
      (((omap p.2).getD nd), p.1))

/-- Single-hop parent match (models `self.match_parent`): with an input
index, the producer at that position filtered by operator type and
exclusion; without one, the first matching parent. -/
def match_parent (omap : String → Option Node) (nd : Node)
    (parent_op_type : String) (input_index : Option Nat)
    (exclude : List Node) : Option Node :=
  match input_index with
  | none => (match_first_parent omap nd parent_op_type exclude).map (fun p => p.1)
  | some i =>
    if h : i < nd.input.length then
      match omap (nd.input.get ⟨i, h⟩) with
      | some parent =>
        if parent.op_type = parent_op_type && !(exclude.contains parent) then some parent
        else none
      | none => none
    else none

/-- Multi-hop walk of `match_parent_path`: each hop's matched parent
becomes the next hop's subject; the whole walk fails on the first
unmatched hop. -/
def matchParentPathAux (omap : String → Option Node) :
    Node → List (String × Option Nat) → Option (List Node)
  | _, [] => some []
  | nd, (t, idx) :: rest =>
    match match_parent omap nd t idx [] with
    | none => none
    | some parent =>
      (matchParentPathAux omap parent rest).map (fun l => parent :: l)

/-- Chain match over op-type and input-index constraints (models
`self.match_parent_path`); `none` also models the `AssertionError` on
mismatched constraint lengths. -/
def match_parent_path (omap : String → Option Node) (nd : Node)
    (parent_op_types : List String) (parent_input_index : List (Option Nat)) :
    Option (List Node) :=
  if parent_op_types.length = parent_input_index.length then
    matchParentPathAux omap nd (parent_op_types.zip parent_input_index)
  else none

/-- Specification predicate for a matched chain: hop `k` matches its
subject (the anchoring node for hop 0, afterwards the previous hop's
matched parent) against its op-type and input-index constraint, producing
the `k`-th matched node. -/
def chainMatches (omap : String → Option Node) :
    Node → List String → List (Option Nat) → List Node → Prop
  | _, [], [], [] => True
  | nd, t :: ts, i :: idxs, p :: ps =>
    match_parent omap nd t i [] = some p ∧ chainMatches omap p ts idxs ps
  | _, _, _, _ => False

/-! Constant resolution. -/

/-- Payload of the first `value` attribute of a node
(models scanning `node.attribute` for `att.name == 'value'` and reading
`att.t`; a non-tensor payload carries no data). -/
def firstValueAttr (nd : Node) : Option (List PyNum) :=
  (nd.attrs.find? (fun a => a.name = "value")).map (fun a =>
    match a.kind with
    | AttrKind.tensorK d => d
    | _ => [])

/-- Scan of the `Constant` nodes for one producing the name, inner layer
of `self.get_constant_value`: skips constants whose first output is
another name or that lack a `value` attribute; outer `none` models the
`IndexError` on a constant with no outputs. -/
def scanConstants (output_name : String) : List Node → Option (Option (List PyNum))
  | [] => some none
  | nd :: rest =>
    match nd.output with
    | [] => none
    | o :: _ =>
      if o = output_name then
        match firstValueAttr nd with
        | some d => some (some d)
        | none => scanConstants output_name rest
      else scanConstants output_name rest

/-- Resolved constant bound to a value name (models
`self.get_constant_value`): first a literal `Constant` node, then the
initializer fallback; outer `none` models a raised exception. -/
def get_constant_value (m : OModel) (output_name : String) :
    Option (Option (List PyNum)) :=
  match scanConstants output_name (get_nodes_by_op_type m "Constant") with
  | none => none
  | some (some d) => some (some d)
  | some none => some ((get_initializer m output_name).map (fun t => t.data))

/-- Scan of a node's inputs for the first one that resolves to a constant,
with its position (models `self.get_constant_input`); outer `none` models
a raised exception. -/
def getConstantInputAux (m : OModel) : Nat → List String → Option (Option (Nat × List PyNum))
  | _, [] => some none
  | i, x :: rest =>
    match get_constant_value m x with
    | none => none
    | some (some v) => some (some (i, v))
    | some none => getConstantInputAux m (i + 1) rest

/-- First constant input of a node (models `self.get_constant_input`). -/
def get_constant_input (m : OModel) (nd : Node) : Option (Option (Nat × List PyNum)) :=
  getConstantInputAux m 0 nd.input

/-- Index of the first constant input when it is a single scalar within
`delta` of the expected value, else `-1` (models
`self.find_constant_input`); outer `none` models a raised exception. -/
def find_constant_input (m : OModel) (nd : Node) (expected_value : PyNum)
    (delta : PyNum) : Option Int :=
  match get_constant_input m nd with
  | none => none
  | some (some (i, v)) =>
    if v.length = 1 && ((v.headD ⟨0, 1⟩).sub expected_value).abs.lt delta then
      some (i : Int)
    else some (-1)
  | some none => some (-1)

/-! Name minting. -/

/-- Decimal digit value of a character, when it is one. -/
def digitVal? (c : Char) : Option Nat :=
  if c = '0' then some 0 else if c = '1' then some 1 else if c = '2' then some 2
  else if c = '3' then some 3 else if c = '4' then some 4 else if c = '5' then some 5
  else if c = '6' then some 6 else if c = '7' then some 7 else if c = '8' then some 8
  else if c = '9' then some 9 else none

/-- One fold step of the digit parse: accumulated value times ten plus
the next digit, failing on a non-digit. -/
def digitStep (acc : Option Nat) (c : Char) : Option Nat :=
  match acc, digitVal? c with
  | some a, some d => some (a * 10 + d)
  | _, _ => none

/-- Parse of a non-empty all-digit character list, most significant
first. -/
def digitsToNat : List Char → Option Nat
  | [] => none
  | l => l.foldl digitStep (some 0)

/-- Model of Python `int(s)` on the suffix strings this module mints and
scans: an optional minus sign followed by decimal digits.  (Python's
`int` also tolerates surrounding whitespace, a plus sign and digit-group
underscores; such names never arise from this module's own minting.) -/
def pyInt? (s : String) : Option Int :=
  match s.data with
  | [] => none
  | c :: cs =>
    if c = '-' then (digitsToNat cs).map (fun v => -(v : Int))
    else (digitsToNat (c :: cs)).map (fun v => (v : Int))

/-- Character of a decimal digit. -/
def digitChar (d : Nat) : Char :=
  Char.ofNat (48 + d)

/-- Little-endian decimal digits of a positive number, with enough fuel. -/
def natDigitsAux : Nat → Nat → List Char
  | 0, _ => []
  | fuel + 1, n => if n = 0 then [] else digitChar (n % 10) :: natDigitsAux fuel (n / 10)

/-- Decimal rendering of a natural number (models Python `str` on the
non-negative suffixes this module mints). -/
def natToStr (n : Nat) : String :=
  if n = 0 then "0" else String.mk (natDigitsAux n n).reverse

/-- Character-list prefix test (models Python `str.startswith`). -/
def strStartsWith (s pre : String) : Bool :=
  pre.data.isPrefixOf s.data

/-- Character-list suffix drop (models the Python slice
`node.name[len(p):]`). -/
def strDropLen (s : String) (n : Nat) : String :=
  String.mk (s.data.drop n)

/-- One step of the suffix scan: raise the running maximum when the name
starts with the prefix and its remainder parses as an integer. -/
def scanStep (pfx : String) (suffix : Int) (nd : Node) : Int :=
  if strStartsWith nd.name pfx then
    match pyInt? (strDropLen nd.name pfx.length) with
    | some k => max (k + 1) suffix
    | none => suffix
  else suffix

/-- Suffix scan over the existing node names for one prefix: the running
maximum of parsed-suffix-plus-one over names that start with the prefix
and whose remainder parses as an integer (models the `for node in
self.nodes()` loop of `create_node_name`). -/
def scanSuffix (pfx : String) (nds : List Node) : Int :=
  nds.foldl (scanStep pfx) 0

/-- Prefix used by name minting: the supplied prefix when non-empty, else
the operator type, `_`-terminated either way. -/
def mintPfx (op_type : String) (name_pfx : Option String) : String :=
  match name_pfx with
  | some p =>
    if p = "" then op_type ++ "_"
    else if p.data.getLast? = some '_' then p else p ++ "_"
  | none => op_type ++ "_"

/-- Decimal rendering of the minted suffix (always non-negative in the
states this module itself produces). -/
def renderSuffix (s : Int) : String :=
  if s < 0 then "-" ++ natToStr s.natAbs else natToStr s.toNat

/-- Unique node-name minting (models `self.create_node_name`): the suffix
comes from the ledger when the prefix has an entry, else from a one-time
scan of the existing names; the ledger records the suffix used.  Returns
the minted name and the updated session state. -/
def create_node_name (m : OModel) (op_type : String)
    (name_pfx : Option String) : String × OModel :=
  let pfx := mintPfx op_type name_pfx
  let suffix : Int :=
    match m.ledger.lookup pfx with
    | some v => v + 1
    | none => scanSuffix pfx m.nodes
  (pfx ++ renderSuffix suffix, { m with ledger := (pfx, suffix) :: m.ledger })

/-! Traversals.  The Python deques pop from the right and push new work on
the left; the embedding keeps the queue with the next element first, so a
pop takes the head, freshly discovered work is appended at the tail, and
an initial deque built from a list is that list reversed.  Unbounded
searches are embedded with fuel, `none` standing for a search that has
not finished; `find_first_child_by_type` and `find_first_parent_by_type`
maintain no visited set, so no finite fuel suffices on a cyclic graph. -/

/-- Consumers of each output of a node, in output order
(models `self.get_children`). -/
def get_children (m : OModel) (nd : Node) : List Node :=
  nd.output.flatMap (fun o => inputNameToNodes m o)

/-- Producers of each present input of a node, in input order
(models `self.get_parents`). -/
def get_parents (m : OModel) (nd : Node) : List Node :=
  nd.input.filterMap (fun i => outputNameToNode m i)

/-- One loop iteration of `find_first_child_by_type`: report the result
when the queue is exhausted or the head matches, else the next queue. -/
def ffcStep (m : OModel) (child_type : String) (recursive : Bool)
    (q : List Node) : Sum (Option Node) (List Node) :=
  match q with
  | [] => Sum.inl none
  | c :: rest =>
    if c.op_type = child_type then Sum.inl (some c)
    else Sum.inr (if recursive then rest ++ get_children m c else rest)

/-- Fuelled iteration of `ffcStep`. -/
def ffcRun (m : OModel) (child_type : String) (recursive : Bool) :
    Nat → List Node → Option (Option Node)
  | 0, _ => none
  | fuel + 1, q =>
    match ffcStep m child_type recursive q with
    | Sum.inl r => some r
    | Sum.inr q2 => ffcRun m child_type recursive fuel q2

/-- Search for the first downstream node of a type
(models `self.find_first_child_by_type`). -/
def find_first_child_by_type (m : OModel) (nd : Node) (child_type : String)
    (recursive : Bool) (fuel : Nat) : Option (Option Node) :=
  ffcRun m child_type recursive fuel (get_children m nd).reverse

/-- Divergence of `find_first_child_by_type`: no amount of fuel finishes
the search (the Python loop never exits). -/
def ffcDiverges (m : OModel) (nd : Node) (child_type : String)
    (recursive : Bool) : Prop :=
  ∀ fuel : Nat, find_first_child_by_type m nd child_type recursive fuel = none

/-- One loop iteration of `find_first_parent_by_type`. -/
def ffpStep (m : OModel) (parent_type : String) (recursive : Bool)
    (q : List Node) : Sum (Option Node) (List Node) :=
  match q with
  | [] => Sum.inl none
  | c :: rest =>
    if c.op_type = parent_type then Sum.inl (some c)
    else Sum.inr (if recursive then rest ++ get_parents m c else rest)

/-- Fuelled iteration of `ffpStep`. -/
def ffpRun (m : OModel) (parent_type : String) (recursive : Bool) :
    Nat → List Node → Option (Option Node)
  | 0, _ => none
  | fuel + 1, q =>
    match ffpStep m parent_type recursive q with
    | Sum.inl r => some r
    | Sum.inr q2 => ffpRun m parent_type recursive fuel q2

/-- Search for the first upstream node of a type
(models `self.find_first_parent_by_type`). -/
def find_first_parent_by_type (m : OModel) (nd : Node) (parent_type : String)
    (recursive : Bool) (fuel : Nat) : Option (Option Node) :=
  ffpRun m parent_type recursive fuel (get_parents m nd).reverse

/-- Divergence of `find_first_parent_by_type`: no amount of fuel finishes
the search (the Python loop never exits). -/
def ffpDiverges (m : OModel) (nd : Node) (parent_type : String)
    (recursive : Bool) : Prop :=
  ∀ fuel : Nat, find_first_parent_by_type m nd parent_type recursive fuel = none

/-- Worklist of `get_children_subgraph_nodes`: a stop node or an already
visited node is dropped, a new node is recorded and its children
enqueued. -/
def gcsnAux (m : OModel) (stop_nodes : List Node) :
    Nat → List Node → List Node → Option (List Node)
  | 0, _, _ => none
  | _ + 1, visited, [] => some visited
  | fuel + 1, visited, c :: rest =>
    if c ∈ stop_nodes then gcsnAux m stop_nodes fuel visited rest
    else if c ∈ visited then gcsnAux m stop_nodes fuel visited rest
    else gcsnAux m stop_nodes fuel (visited ++ [c]) (rest ++ get_children m c)

/-- Largest per-node child count, used to size the traversal fuel. -/
def maxChildCount (m : OModel) : Nat :=
  (m.nodes.map (fun nd => (get_children m nd).length)).foldr max 0

/-- Fuel that provably suffices for the visited-set worklist: every step
either consumes a queue entry or visits a new node value. -/
def gcsnFuel (m : OModel) (q : List Node) : Nat :=
  q.length + m.nodes.length * (maxChildCount m + 1) + 1

/-- Downstream reachable-set collection
(models `self.get_children_subgraph_nodes`).  The outer `none` models the
Python exceptions at entry: `root_node.output[0]` on a node without
outputs, and the unguarded `input_name_to_nodes[...]` lookup when the
first output has no consumer.  The seed is that lookup alone; outputs of
the root other than the first play no part. -/
def get_children_subgraph_nodes (m : OModel) (root_node : Node)
    (stop_nodes : List Node) : Option (Option (List Node)) :=
  match root_node.output with
  | [] => none
  | x :: _ =>
    let children := inputNameToNodes m x
    if children = [] then none
    else some (gcsnAux m stop_nodes (gcsnFuel m children.reverse) [] children.reverse)

/-- Worklist of `get_parent_subgraph_nodes`, the upstream mirror of
`gcsnAux`. -/
def gpsnAux (m : OModel) (stop_nodes : List Node) :
    Nat → List Node → List Node → Option (List Node)
  | 0, _, _ => none
  | _ + 1, visited, [] => some visited
  | fuel + 1, visited, c :: rest =>
    if c ∈ stop_nodes then gpsnAux m stop_nodes fuel visited rest
    else if c ∈ visited then gpsnAux m stop_nodes fuel visited rest
    else gpsnAux m stop_nodes fuel (visited ++ [c]) (rest ++ get_parents m c)

/-- Largest per-node parent count, used to size the traversal fuel. -/
def maxParentCount (m : OModel) : Nat :=
  (m.nodes.map (fun nd => (get_parents m nd).length)).foldr max 0

/-- Fuel sizing for the upstream worklist. -/
def gpsnFuel (m : OModel) (q : List Node) : Nat :=
  q.length + m.nodes.length * (maxParentCount m + 1) + 1

/-- Upstream reachable-set collection
(models `self.get_parent_subgraph_nodes`; no unguarded lookup at entry,
the seed being `get_parents`). -/
def get_parent_subgraph_nodes (m : OModel) (nd : Node)
    (stop_nodes : List Node) : Option (List Node) :=
  gpsnAux m stop_nodes (gpsnFuel m (get_parents m nd).reverse) []
    (get_parents m nd).reverse

/-- Reachability specification for the downstream collection: the nodes
reachable from the consumers of the seed name through value edges, never
entering a stop node. -/
inductive ReachC (m : OModel) (seed : String) (stop_nodes : List Node) : Node → Prop where
  | seedR : ∀ v, v ∈ inputNameToNodes m seed → ¬ v ∈ stop_nodes → ReachC m seed stop_nodes v
  | stepR : ∀ u v, ReachC m seed stop_nodes u → v ∈ get_children m u →
      ¬ v ∈ stop_nodes → ReachC m seed stop_nodes v

/-! Graph maintenance: unused-constant removal, pruning, input/weight
cleanup. -/

/-- Membership of an operator type in the control-flow list the pruning
code checks (models `node.op_type in ['Loop', 'Scan', 'If']`). -/
def isControlFlowOp (nd : Node) : Bool :=
  (["Loop", "Scan", "If"].contains nd.op_type)

/-- Graph input lookup on the primary graph
(models `self.find_graph_input`). -/
def find_graph_input (m : OModel) (input_name : String) : Option VInfo :=
  m.primary.input.find? (fun v => v.name = input_name)

/-- Graph output lookup on the primary graph
(models `self.find_graph_output`). -/
def find_graph_output (m : OModel) (output_name : String) : Option VInfo :=
  m.primary.output.find? (fun v => v.name = output_name)

/-- Collection of the `Constant` nodes whose first output no node
consumes (the removal set of `self.remove_unused_constant`); `none`
models the `IndexError` on a `Constant` without outputs. -/
def collectUnusedConstants (m : OModel) : List Node → Option (List Node)
  | [] => some []
  | nd :: rest =>
    if nd.op_type = "Constant" then
      match nd.output with
      | [] => none
      | o :: _ =>
        if inputNameToNodes m o = [] then
          (collectUnusedConstants m rest).map (fun l => nd :: l)
        else collectUnusedConstants m rest
    else collectUnusedConstants m rest

/-- Removal of literal constants that nothing consumes
(models `self.remove_unused_constant`). -/
def remove_unused_constant (m : OModel) : Option OModel :=
  (collectUnusedConstants m m.nodes).map (fun l => remove_nodes m l)

/-- Dead-input and dead-initializer cleanup on the primary graph
(models `self.update_graph`): bails out unchanged on a control-flow node;
otherwise drops the graph inputs no non-`Constant` node reads, drops the
initializers neither read nor declared as outputs, and removes unused
constants.  (The Python code collects `remaining_input_names` as an
order-deduplicated list; only membership in it is ever used.) -/
def update_graph (m : OModel) : Option OModel :=
  if m.primary.node.any isControlFlowOp then some m
  else
    let remaining :=
      (m.primary.node.filter (fun nd => ¬ nd.op_type = "Constant")).flatMap
        (fun nd => nd.input)
    let g1 := { m.primary with
      input := m.primary.input.filter (fun v => remaining.contains v.name) }
    let g2 := { g1 with
      initializer := g1.initializer.filter (fun t =>
        remaining.contains t.name || (find_graph_output m t.name).isSome) }
    remove_unused_constant { m with primary := g2 }

/-- Backward collection of the nodes contributing to the retained outputs
(the `all_nodes` loop of `prune_graph`); `none` models an unfinished
upstream traversal. -/
def collectKeep (m : OModel) : List String → List Node → Option (List Node)
  | [], acc => some acc
  | o :: rest, acc =>
    match outputNameToNode m o with
    | none => collectKeep m rest acc
    | some last_node =>
      if last_node ∈ acc then collectKeep m rest acc
      else
        match get_parent_subgraph_nodes m last_node [] with
        | none => none
        | some ns => collectKeep m rest (acc ++ last_node :: ns)

/-- Pruning to the retained outputs (models `self.prune_graph`): bails
out with the model unchanged when any node of the primary graph is a
control-flow operator; otherwise removes the primary-graph nodes not
contributing to a retained output, the outputs outside the retained
list, and the graph inputs no remaining node consumes, then runs
`update_graph`. -/
def prune_graph (m : OModel) (outputs : Option (List String)) : Option OModel :=
  if m.primary.node.any isControlFlowOp then some m
  else
    let outs := outputs.getD (m.primary.output.map (fun v => v.name))
    match collectKeep m outs [] with
    | none => none
    | some all_nodes =>
      let nodes_to_remove := m.primary.node.filter (fun nd => ¬ nd ∈ all_nodes)
      let m1 := remove_nodes m nodes_to_remove
      let m2 := { m1 with primary := { m1.primary with
        output := m1.primary.output.filter (fun v => outs.contains v.name) } }
      let m3 := { m2 with primary := { m2.primary with
        input := m2.primary.input.filter (fun v => ¬ inputNameToNodes m2 v.name = []) } }
      update_graph m3

/-! Topological sort (models the static method `graph_topological_sort`
and `topological_sort`).  The algorithm works over node positions in the
graph: each position carries an unresolved-dependency count (empty-string
inputs do not count); positions with no dependencies are emitted first in
position order; then every distinct initializer or graph-input name, in
sorted order, decrements its registered consumers; finally the emitted
list is drained as a queue, each drained node's outputs decrementing
their registered consumers, a position being emitted the moment its count
reaches exactly zero.  The final assertion that every node was emitted
(`Graph is not a DAG`) is modelled by the `Option`. -/

/-- Placeholder node for out-of-range position lookups (never reached on
the positions the algorithm produces). -/
def defaultNode : Node :=
  ⟨"", "", [], [], []⟩

/-- Node at a position of the node list. -/
def nodeAt (N : List Node) (i : Nat) : Node :=
  N.getD i defaultNode

/-- Unresolved-dependency count of the node at a position: its non-empty
inputs (the `sum(1 for _ in node.input if _)` of the source). -/
def depsCount0 (N : List Node) (i : Nat) : Nat :=
  ((nodeAt N i).input.filter (fun s => ¬ s = "")).length

/-- State of the sort: the current dependency counts and the emitted
positions (`deps_count` and `sorted_nodes` of the source). -/
@[ext]
structure SortSt where
  counts : Nat → Int
  sorted : List Nat

/-- One decrement of `deps_count[j]`, emitting `j` when the count lands
exactly on zero. -/
def decOne (st : SortSt) (j : Nat) : SortSt :=
  let c := st.counts j - 1
  { counts := fun k => if k = j then c else st.counts k
    sorted := if c = 0 then st.sorted ++ [j] else st.sorted }

/-- Registered consumers of a value name: the positions of the
dependency-bearing nodes, one entry per matching input slot in scan order
(the `deps_to_nodes` dictionary of the source, which skips the nodes
emitted immediately). -/
def consumersOf (N : List Node) (x : String) : List Nat :=
  (List.range N.length).flatMap (fun i =>
    if 0 < depsCount0 N i then
      ((nodeAt N i).input.filter (fun s => s = x)).map (fun _ => i)
    else [])

/-- Multiplicity with which a value name is registered for a position:
the number of matching input slots when the node carries dependencies,
zero otherwise. -/
def multG (N : List Node) (x : String) (i : Nat) : Nat :=
  if 0 < depsCount0 N i then ((nodeAt N i).input.filter (fun s => s = x)).length else 0

/-- Decrement run for one value name over its registered consumers. -/
def applyName (N : List Node) (st : SortSt) (x : String) : SortSt :=
  (consumersOf N x).foldl decOne st

/-- Start state: original counts, the dependency-free positions emitted
in position order. -/
def initialSt (N : List Node) : SortSt :=
  { counts := fun i => (depsCount0 N i : Int)
    sorted := (List.range N.length).filter (fun i => depsCount0 N i = 0) }

/-- Declared constant-producer names of a graph: initializer names then
graph-input names (`initializer_names + graph_input_names`). -/
def allInitNames (g : Graph) : List String :=
  g.initializer.map (fun t => t.name) ++ g.input.map (fun v => v.name)

/-- Byte-wise lexicographic comparison of character lists (models the
Python string order used by `input_names.sort()`). -/
def charListLe : List Char → List Char → Bool
  | [], _ => true
  | _ :: _, [] => false
  | a :: as, b :: bs =>
    if a.toNat < b.toNat then true
    else if b.toNat < a.toNat then false
    else charListLe as bs

/-- String order backing the canonical name sort. -/
def strLe (a b : String) : Prop :=
  charListLe a.data b.data = true

instance : DecidableRel strLe :=
  fun a b => inferInstanceAs (Decidable (charListLe a.data b.data = true))

/-- Sorted, consecutive-duplicate-collapsed initializer and graph-input
names (the sort plus the `prev_input_name` skip of the source). -/
def sortedNames (g : Graph) : List String :=
  (List.insertionSort strLe (allInitNames g)).destutter (fun a b => a ≠ b)

/-- State after seeding: dependency-free nodes emitted, then every
canonical constant-producer name processed. -/
def phase1 (N : List Node) (g : Graph) : SortSt :=
  (sortedNames g).foldl (applyName N) (initialSt N)

/-- Queue drain (`while start < end`): the node at the cursor has each of
its outputs decrement the registered consumers, then the cursor
advances.  The fuel only bounds the loop in the embedding; `N.length`
provably suffices because no position is emitted twice. -/
def drain (N : List Node) : Nat → SortSt → Nat → SortSt
  | 0, st, _ => st
  | fuel + 1, st, start =>
    if h : start < st.sorted.length then
      drain N fuel
        ((nodeAt N (st.sorted.get ⟨start, h⟩)).output.foldl (applyName N) st)
        (start + 1)
    else st

/-- Kahn-style deterministic reorder of a graph's nodes (models
`graph_topological_sort`); `none` models the `Graph is not a DAG`
assertion failure. -/
def graph_topological_sort (g : Graph) : Option Graph :=
  let N := g.node
  let final := drain N N.length (phase1 N g) 0
  if final.sorted.length = N.length then
    some { g with node := final.sorted.map (fun i => nodeAt N i) }
  else none

/-- Topological sort of the session's primary graph
(models `self.topological_sort`; nested graphs are left untouched). -/
def topological_sort (m : OModel) : Option OModel :=
  (graph_topological_sort m.primary).map (fun g => { m with primary := g })

/-! Specification predicates for the topological sort proofs. -/

/-- Structural invariant of a sort state: emitted positions are distinct,
in range, and their counts have crossed zero. -/
def StInv (n : Nat) (st : SortSt) : Prop :=
  st.sorted.Nodup ∧ ∀ i ∈ st.sorted, i < n ∧ st.counts i ≤ 0

/-- Out-of-range counts stay at zero. -/
def ZOut (N : List Node) (st : SortSt) : Prop :=
  ∀ i, N.length ≤ i → st.counts i = 0

/-- Count a position still owes once the names in `hitL` have been
processed: its input occurrences with unprocessed names. -/
def hitF (N : List Node) (hitL : List String) (i : Nat) : Int :=
  (((nodeAt N i).input.filter (fun y => decide (¬ y ∈ hitL))).length : Int)

/-- Counts agree with the unprocessed-occurrence formula. -/
def CInv (N : List Node) (hitL : List String) (st : SortSt) : Prop :=
  ∀ i, st.counts i = hitF N hitL i

/-- Every processed name is a declared constant producer or an output of
an already-drained position (one before the cursor). -/
def HitSrc (ini : List String) (N : List Node) (st : SortSt) (s : Nat) (hitL : List String) : Prop :=
  ∀ y ∈ hitL, y ∈ ini ∨ ∃ a, a < s ∧ y ∈ (nodeAt N (st.sorted.getD a 0)).output

/-- Emitted positions follow all the emitted producers of their inputs:
whenever the node at position `b` consumes a name some position `p`
produces, `p` was emitted at an earlier position. -/
def OrdInv (N : List Node) (st : SortSt) : Prop :=
  ∀ b, b < st.sorted.length →
    ∀ y ∈ (nodeAt N (st.sorted.getD b 0)).input,
      ∀ p, p < N.length → y ∈ (nodeAt N p).output →
        ∃ a, a < b ∧ st.sorted.getD a 0 = p

/-- No node has an empty-string entry among its inputs. -/
def NoEmptyInputs (N : List Node) : Prop :=
  ∀ nd ∈ N, ¬ "" ∈ nd.input

/-- Output name occurrences are globally distinct (single static
assignment among nodes). -/
def UniqueOutputs (N : List Node) : Prop :=
  (N.flatMap (fun nd => nd.output)).Nodup

/-- No node output collides with an initializer or graph-input name. -/
def OutputsNotInit (N : List Node) (ini : List String) : Prop :=
  ∀ y ∈ N.flatMap (fun nd => nd.output), ¬ y ∈ ini

/-- Transport relation between a sort run and its rerun on the sorted
graph: the rerun has emitted exactly the first positions, the original
run's emissions form a prefix of its final order, and counts correspond
through that order. -/
def SimInv (N : List Node) (r : List Nat) (st1 st2 : SortSt) : Prop :=
  st2.sorted = List.range st1.sorted.length
  ∧ st1.sorted <+: r
  ∧ (∀ j, st2.counts j = st1.counts (r.getD j N.length))
  ∧ ZOut N st1

/-! Concrete instances used to evaluate the verified operations. -/

/-- Node with an empty-string output slot (optional output), producing
`"c"` second. -/
def exC : Node := ⟨"C", "OpC", [], ["", "c"], []⟩

/-- Node consuming `"x"` and an empty-string (optional) input. -/
def exA : Node := ⟨"A", "OpA", ["x", ""], ["y"], []⟩

/-- Node consuming `"c"` and producing `"x"`, the producer of `exA`'s
first input. -/
def exB : Node := ⟨"B", "OpB", ["c"], ["x"], []⟩

/-- Graph on which the sort emits `exA` before its producer `exB`. -/
def exSortGraph : Graph := ⟨"main", [exC, exA, exB], [], [⟨"y"⟩], []⟩

/-- Session holding `exSortGraph` as primary graph. -/
def exSortModel : OModel := ⟨exSortGraph, [], []⟩

/-- The session the sort returns for `exSortModel` (order `C, A, B`). -/
def exSortedModel : OModel := ⟨⟨"main", [exC, exA, exB], [], [⟨"y"⟩], []⟩, [], []⟩

/-- Two-node chain `P` then `Q` over graph input `"i"`. -/
def exP : Node := ⟨"P", "Op", ["i"], ["p"], []⟩

/-- Consumer of `exP`'s output. -/
def exQ : Node := ⟨"Q", "Op", ["p"], ["q"], []⟩

/-- Well-formed two-node graph, stored out of topological order. -/
def exChainGraph : Graph := ⟨"g", [exQ, exP], [⟨"i"⟩], [⟨"q"⟩], []⟩

/-- Session holding `exChainGraph`. -/
def exChainModel : OModel := ⟨exChainGraph, [], []⟩

/-- The session the sort returns for `exChainModel` (order `P, Q`). -/
def exChainSorted : OModel := ⟨⟨"g", [exP, exQ], [⟨"i"⟩], [⟨"q"⟩], []⟩, [], []⟩

/-- One half of a two-node value cycle. -/
def cycA : Node := ⟨"A", "OpA", ["b"], ["a"], []⟩

/-- Other half of the value cycle. -/
def cycB : Node := ⟨"B", "OpB", ["a"], ["b"], []⟩

/-- Session whose primary graph is the two-node cycle. -/
def cycModel : OModel := ⟨⟨"main", [cycA, cycB], [], [], []⟩, [], []⟩

/-- Scalar-valued `value` attribute. -/
def valAttr (v : PyNum) : Attr := ⟨"value", AttrKind.tensorK [v]⟩

/-- Literal constant bound to `"c1"` with scalar value 5. -/
def exK1 : Node := ⟨"K1", "Constant", [], ["c1"], [valAttr ⟨5, 1⟩]⟩

/-- Literal constant bound to `"c2"` with scalar value 2. -/
def exK2 : Node := ⟨"K2", "Constant", [], ["c2"], [valAttr ⟨2, 1⟩]⟩

/-- Consumer whose first input resolves to scalar 5 and whose second
resolves to scalar 2. -/
def exU : Node := ⟨"U", "Mul", ["c1", "c2"], ["u"], []⟩

/-- Session for the two-constant-input instance. -/
def exConstModel : OModel := ⟨⟨"main", [exK1, exK2, exU], [], [], []⟩, [], []⟩

/-- Consumer whose first input resolves to scalar 2. -/
def exU2 : Node := ⟨"U2", "Mul", ["c2", "x"], ["u2"], []⟩

/-- Session for the single-constant-input instance of the specification. -/
def exConstModel2 : OModel := ⟨⟨"main", [exK2, exU2], [], [], []⟩, [], []⟩

/-- Node carrying a minted-looking name the ledger does not cover. -/
def exAdd1 : Node := ⟨"Add_1", "Add", [], ["a1"], []⟩

/-- Session whose ledger entry for `Add_` lags behind the node names. -/
def exMintModel : OModel := ⟨⟨"main", [exAdd1], [], [], []⟩, [], [("Add_", 0)]⟩

/-- Session with an untouched ledger and one minted-looking name. -/
def exMintModel2 : OModel := ⟨⟨"main", [exAdd1], [], [], []⟩, [], []⟩

/-- Control-flow node with a nested-graph body attribute. -/
def exLoop : Node := ⟨"L", "Loop", ["x"], ["y"], [⟨"body", AttrKind.graphK⟩]⟩

/-- Session whose primary graph holds the control-flow node and whose
collection holds its discovered body. -/
def exLoopModel : OModel :=
  ⟨⟨"main", [exLoop], [⟨"x"⟩], [⟨"y"⟩], []⟩, [⟨"body", [], [], [], []⟩], []⟩

/-- Session whose primary graph holds the same node twice
(protobuf value equality conflates the copies). -/
def exDupModel : OModel := ⟨⟨"main", [exP, exP], [⟨"i"⟩], [], []⟩, [], []⟩

/-- Session with one named subgraph whose node consumes `"w"`. -/
def exSubConsumer : Node := ⟨"S", "Op", ["w"], ["s"], []⟩

/-- Named subgraph for insertion tests. -/
def exSubGraph : Graph := ⟨"sub", [exSubConsumer], [], [], []⟩

/-- Session holding `exSubGraph` as only subgraph. -/
def exSubModel : OModel := ⟨⟨"main", [], [], [], []⟩, [exSubGraph], []⟩

/-- Node producing the name the subgraph consumes. -/
def exWProducer : Node := ⟨"W", "Op", [], ["w"], []⟩

/-! Theorems.  Each claim of the specification is settled by one named
theorem (plus a witness instantiating its hypotheses, or a counterexample
where the claim fails). -/

/-- Helper: mapping a function that fixes every element of a list is the
identity. -/
theorem map_id_of_fixed {α : Type} (f : α → α) :
    ∀ l : List α, (∀ a ∈ l, f a = a) → l.map f = l := by
  intro l h
  induction l with
  | nil => rfl
  | cons a t ih =>
    simp only [List.map_cons, h a (List.mem_cons_self a t)]
    rw [ih (fun b hb => h b (List.mem_cons_of_mem a hb))]

/-- C3: when some node of the primary graph is a control-flow operator
with a nested-graph body, `prune_graph` returns with the session state
completely unchanged, whatever output list it is asked to retain. -/
theorem prune_graph_bails_out (m : OModel) (outs : Option (List String))
    (h : ∃ nd ∈ m.primary.node, isControlFlowOp nd = true ∧
      ∃ a ∈ nd.attrs, a.kind = AttrKind.graphK ∨ a.kind = AttrKind.graphsK) :
    prune_graph m outs = some m := by
  obtain ⟨nd, hmem, hop, -⟩ := h
  unfold prune_graph
  rw [if_pos (List.any_eq_true.mpr ⟨nd, hmem, hop⟩)]

/-- Witness for C3 on a concrete loop-bearing session. -/
theorem prune_graph_bails_out_witness :
    prune_graph exLoopModel none = some exLoopModel :=
  prune_graph_bails_out exLoopModel none (by decide)

/-- C6 (amended): removing a node deletes the first value-equal occurrence
from every discovered graph; when the node occurs at most once per graph
(in particular whenever node values are not duplicated), the node is
afterwards found in no discovered graph. -/
theorem remove_node_then_lookup_none (m : OModel) (g : Graph) (nd : Node)
    (hg : g ∈ m.graphs) (hmem : nd ∈ g.node)
    (hcount : ∀ g' ∈ m.graphs, g'.node.count nd ≤ 1) :
    get_graph_by_node (remove_node m nd) nd = none := by
  have herase : ∀ g' ∈ m.graphs, ¬ nd ∈ g'.node.erase nd := by
    intro g' hg' hmem'
    have hpos : 0 < (g'.node.erase nd).count nd := List.count_pos_iff.mpr hmem'
    have := List.count_erase_self nd g'.node
    have hle := hcount g' hg'
    omega
  apply List.find?_eq_none.mpr
  intro g' hg' hcont
  have hmem' : nd ∈ g'.node := by
    simpa using hcont
  rcases List.mem_cons.mp hg' with h1 | h2
  · exact herase m.primary (List.mem_cons_self _ _) (by rw [h1] at hmem'; exact hmem')
  · obtain ⟨g0, hg0, hg0e⟩ := List.mem_map.mp h2
    exact herase g0 (List.mem_cons_of_mem _ hg0) (by rw [← hg0e] at hmem'; exact hmem')

/-- Witness for C6 on a concrete session. -/
theorem remove_node_then_lookup_none_witness :
    get_graph_by_node (remove_node exChainModel exP) exP = none :=
  remove_node_then_lookup_none exChainModel exChainGraph exP (by decide) (by decide)
    (by decide)

/-- C6 counterexample: with the same node held twice by the primary graph
(the claim quantifies over every node contained in a graph), removal
deletes only the first occurrence and the node is still found. -/
theorem remove_node_duplicate_counterexample :
    exP ∈ exDupModel.primary.node ∧
    ¬ get_graph_by_node (remove_node exDupModel exP) exP = none := by
  decide

/-- Helper: when a first matching subgraph exists, the positional update
succeeds, and the updated graph is what a name lookup then finds as long
as the update preserved the match. -/
theorem updateFirstSub_find (p : Graph → Bool) (f : Graph → Graph) :
    ∀ (l : List Graph) (g : Graph), l.find? p = some g →
      ∃ l', updateFirstSub p f l = some l' ∧
        (p (f g) = true → l'.find? p = some (f g)) := by
  intro l
  induction l with
  | nil => intro g h; simp at h
  | cons a t ih =>
    intro g h
    by_cases hp : p a = true
    · rw [List.find?_cons_of_pos _ hp] at h
      injection h with h
      subst h
      refine ⟨f a :: t, ?_, ?_⟩
      · unfold updateFirstSub
        rw [if_pos hp]
      · intro hfa
        rw [List.find?_cons_of_pos _ hfa]
    · rw [List.find?_cons_of_neg _ hp] at h
      obtain ⟨l', hl', hfind⟩ := ih g h
      refine ⟨a :: l', ?_, ?_⟩
      · unfold updateFirstSub
        rw [if_neg hp, hl']
        rfl
      · intro hfa
        rw [List.find?_cons_of_neg _ hp]
        exact hfind hfa

/-- Helper: the positional update succeeds whenever a matching subgraph
exists. -/
theorem updateFirstSub_isSome (p : Graph → Bool) (f : Graph → Graph) :
    ∀ l : List Graph, (l.find? p).isSome = true →
      (updateFirstSub p f l).isSome = true := by
  intro l h
  obtain ⟨g, hg⟩ := Option.isSome_iff_exists.mp h
  obtain ⟨l', hl', -⟩ := updateFirstSub_find p f l g hg
  rw [hl']
  rfl

/-- Helper: with no matching subgraph the positional update reports
failure. -/
theorem updateFirstSub_none (p : Graph → Bool) (f : Graph → Graph) :
    ∀ l : List Graph, l.find? p = none → updateFirstSub p f l = none := by
  intro l
  induction l with
  | nil => intro _; rfl
  | cons a t ih =>
    intro h
    have hpa : p a = false := by
      cases hpa : p a with
      | false => rfl
      | true =>
        rw [List.find?_cons_of_pos _ hpa] at h
        exact absurd h (by simp)
    rw [List.find?_cons_of_neg _ (by simp [hpa])] at h
    unfold updateFirstSub
    rw [if_neg (by simp [hpa]), ih h]
    rfl

/-- C7: `add_node` appends to the primary graph's node sequence when the
target graph name is unset or equal to the primary graph's name;
otherwise it inserts into the named graph at the position of the first
existing node consuming one of the new node's outputs, or at the end of
that graph's node sequence when no existing node does. -/
theorem add_node_insert_position (m : OModel) (nd : Node) :
    (add_node m nd none =
      some { m with primary := { m.primary with node := m.primary.node ++ [nd] } })
    ∧ (add_node m nd (some m.primary.name) =
      some { m with primary := { m.primary with node := m.primary.node ++ [nd] } })
    ∧ ∀ gn g, ¬ gn = m.primary.name → get_graph_by_name m gn = some g →
        ∃ m', add_node m nd (some gn) = some m'
          ∧ m'.primary = m.primary
          ∧ get_graph_by_name m' gn =
              some { g with node := g.node.insertIdx (get_topological_insert_id g nd.output) nd }
          ∧ ((get_topological_insert_id g nd.output = g.node.length ∧
                ∀ nd' ∈ g.node, nd'.input.any (fun i => nd.output.contains i) = false)
             ∨ ∃ h : get_topological_insert_id g nd.output < g.node.length,
                 (g.node.get ⟨get_topological_insert_id g nd.output, h⟩).input.any
                   (fun i => nd.output.contains i) = true
                 ∧ ∀ j, ∀ hj : j < get_topological_insert_id g nd.output,
                     (g.node.get ⟨j, hj.trans h⟩).input.any
                       (fun i => nd.output.contains i) = false) := by
  refine ⟨rfl, by simp [add_node], ?_⟩
  intro gn g hp hg
  have hsub : m.subgraphs.find? (fun g => g.name = gn) = some g := by
    unfold get_graph_by_name OModel.graphs at hg
    rwa [List.find?_cons_of_neg _ (by simp; exact fun he => hp he.symm)] at hg
  have hgname : g.name = gn := by
    have := List.find?_some hsub
    simpa using this
  obtain ⟨l', hl', hfind⟩ := updateFirstSub_find (fun g => decide (g.name = gn))
    (fun g => { g with node := List.insertIdx (get_topological_insert_id g nd.output) nd g.node })
    m.subgraphs g hsub
  refine ⟨{ m with subgraphs := l' }, ?_, rfl, ?_, ?_⟩
  · simp only [add_node, if_neg hp, hl']
    rfl
  · unfold get_graph_by_name OModel.graphs
    rw [List.find?_cons_of_neg _ (by simp; exact fun he => hp he.symm)]
    exact hfind (by simpa using hgname)
  · by_cases hidx : get_topological_insert_id g nd.output < g.node.length
    · refine Or.inr ⟨hidx, ?_, ?_⟩
      · unfold get_topological_insert_id at hidx ⊢
        exact @List.findIdx_get _ (fun nd' => nd'.input.any fun i => nd.output.contains i)
          g.node hidx
      · intro j hj
        unfold get_topological_insert_id at hj
        have := @List.not_of_lt_findIdx _ (fun nd' => nd'.input.any fun i => nd.output.contains i) g.node j hj
        simpa [List.get_eq_getElem] using this
    · have hlen : get_topological_insert_id g nd.output = g.node.length := by
        have := @List.findIdx_le_length _
          (fun nd' => nd'.input.any (fun i => nd.output.contains i)) g.node
        unfold get_topological_insert_id
        unfold get_topological_insert_id at hidx
        omega
      exact Or.inl ⟨hlen, fun nd' hnd' => List.findIdx_eq_length.mp hlen nd' hnd'⟩

/-- Witness for C7 on a concrete session with a named subgraph whose node
consumes the inserted node's output. -/
theorem add_node_insert_position_witness :
    ∃ m', add_node exSubModel exWProducer (some "sub") = some m'
      ∧ m'.primary = exSubModel.primary
      ∧ get_graph_by_name m' "sub" =
          some { exSubGraph with node := exSubGraph.node.insertIdx (get_topological_insert_id exSubGraph exWProducer.output) exWProducer }
      ∧ ((get_topological_insert_id exSubGraph exWProducer.output = exSubGraph.node.length ∧
            ∀ nd' ∈ exSubGraph.node,
              nd'.input.any (fun i => exWProducer.output.contains i) = false)
         ∨ ∃ h : get_topological_insert_id exSubGraph exWProducer.output < exSubGraph.node.length,
             (exSubGraph.node.get ⟨get_topological_insert_id exSubGraph exWProducer.output, h⟩).input.any
               (fun i => exWProducer.output.contains i) = true
             ∧ ∀ j, ∀ hj : j < get_topological_insert_id exSubGraph exWProducer.output,
                 (exSubGraph.node.get ⟨j, hj.trans h⟩).input.any
                   (fun i => exWProducer.output.contains i) = false) :=
  (add_node_insert_position exSubModel exWProducer).2.2 "sub" exSubGraph
    (by decide) (by decide)

/-- Helper: decomposition of the first-constant-input scan.  A `none`
result means no input resolves; a hit at index `i` splits the inputs into
a non-resolving front of length `i - i0`, the resolving input, and an
unexamined tail. -/
theorem getConstantInputAux_spec (m : OModel) :
    ∀ (l : List String) (i0 : Nat) (r : Option (Nat × List PyNum)),
      getConstantInputAux m i0 l = some r →
      (r = none → ∀ x ∈ l, get_constant_value m x = some none)
      ∧ ∀ i v, r = some (i, v) →
          ∃ l1 x l2, l = l1 ++ x :: l2 ∧ i = i0 + l1.length
            ∧ get_constant_value m x = some (some v)
            ∧ ∀ y ∈ l1, get_constant_value m y = some none := by
  intro l
  induction l with
  | nil =>
    intro i0 r h
    unfold getConstantInputAux at h
    injection h with h
    subst h
    exact ⟨fun _ x hx => absurd hx (List.not_mem_nil x), fun i v hv => by simp at hv⟩
  | cons x rest ih =>
    intro i0 r h
    unfold getConstantInputAux at h
    cases hv : get_constant_value m x with
    | none => rw [hv] at h; exact absurd h (by simp)
    | some o =>
      cases o with
      | some v0 =>
        rw [hv] at h
        injection h with h
        subst h
        refine ⟨fun hc => by simp at hc, fun i v hiv => ?_⟩
        simp only [Option.some.injEq, Prod.mk.injEq] at hiv
        obtain ⟨h1, h2⟩ := hiv
        subst h1
        subst h2
        exact ⟨[], x, rest, rfl, by simp, hv, by simp⟩
      | none =>
        rw [hv] at h
        obtain ⟨hnone, hsome⟩ := ih (i0 + 1) r h
        refine ⟨?_, ?_⟩
        · intro hr y hy
          rcases List.mem_cons.mp hy with h1 | h2
          · subst h1; exact hv
          · exact hnone hr y h2
        · intro i v hiv
          obtain ⟨l1, x1, l2, hsplit, hi, hcv, hfront⟩ := hsome i v hiv
          refine ⟨x :: l1, x1, l2, by rw [hsplit]; rfl, by rw [List.length_cons]; omega, hcv, ?_⟩
          intro y hy
          rcases List.mem_cons.mp hy with h1 | h2
          · subst h1; exact hv
          · exact hfront y h2

/-- C5 (amended): `find_constant_input` examines only the first input
whose value resolves to a constant: when no input resolves it returns
`-1`; when the first resolving input (all earlier inputs resolving to
nothing) carries value `v`, it returns that input's index exactly when
`v` is a single scalar within `delta` of the expected value and `-1`
otherwise — a later input bound to a matching scalar is never
examined. -/
theorem find_constant_input_first_only (m : OModel) (nd : Node)
    (e d : PyNum) (r : Option (Nat × List PyNum))
    (h : get_constant_input m nd = some r) :
    (r = none → find_constant_input m nd e d = some (-1)
      ∧ ∀ x ∈ nd.input, get_constant_value m x = some none)
    ∧ ∀ i v, r = some (i, v) →
        find_constant_input m nd e d =
          some (if v.length = 1 && ((v.headD ⟨0, 1⟩).sub e).abs.lt d then (i : Int) else -1)
        ∧ ∃ l1 x l2, nd.input = l1 ++ x :: l2 ∧ i = l1.length
            ∧ get_constant_value m x = some (some v)
            ∧ ∀ y ∈ l1, get_constant_value m y = some none := by
  obtain ⟨hnone, hsome⟩ := getConstantInputAux_spec m nd.input 0 r h
  refine ⟨?_, ?_⟩
  · intro hr
    refine ⟨?_, hnone hr⟩
    unfold find_constant_input
    rw [h, hr]
  · intro i v hiv
    obtain ⟨l1, x, l2, hsplit, hi, hcv, hfront⟩ := hsome i v hiv
    refine ⟨?_, l1, x, l2, hsplit, by omega, hcv, hfront⟩
    have hred : find_constant_input m nd e d =
        if (v.length = 1 && ((v.headD ⟨0, 1⟩).sub e).abs.lt d) = true then some (i : Int)
        else some (-1) := by
      unfold find_constant_input
      rw [h, hiv]
    rw [hred]
    by_cases hc : (v.length = 1 && ((v.headD ⟨0, 1⟩).sub e).abs.lt d) = true
    · rw [if_pos hc, if_pos hc]
    · rw [if_neg hc, if_neg hc]

/-- Witness for C5: the specification's own instance, a consumer of a
constant bound to scalar 2.0 with tolerance one millionth. -/
theorem find_constant_input_first_only_witness :
    find_constant_input exConstModel2 exU2 ⟨2, 1⟩ ⟨1, 1000000⟩ = some 0
    ∧ find_constant_input exConstModel2 exU2 ⟨201, 100⟩ ⟨1, 1000000⟩ = some (-1) := by
  constructor
  · rw [((find_constant_input_first_only exConstModel2 exU2 ⟨2, 1⟩ ⟨1, 1000000⟩
      (some (0, [⟨2, 1⟩])) (by decide)).2 0 [⟨2, 1⟩] rfl).1]
    decide
  · rw [((find_constant_input_first_only exConstModel2 exU2 ⟨201, 100⟩ ⟨1, 1000000⟩
      (some (0, [⟨2, 1⟩])) (by decide)).2 0 [⟨2, 1⟩] rfl).1]
    decide

/-- C5 counterexample: a node whose second input resolves to a scalar
within tolerance of the expected value still gets `-1`, because the
non-matching first constant input is the only one examined. -/
theorem find_constant_input_counterexample :
    find_constant_input exConstModel exU ⟨2, 1⟩ ⟨1, 1000000⟩ = some (-1)
    ∧ exU.input[1]? = some "c2"
    ∧ get_constant_value exConstModel "c2" = some (some [⟨2, 1⟩])
    ∧ (([(⟨2, 1⟩ : PyNum)].headD ⟨0, 1⟩).sub ⟨2, 1⟩).abs.lt ⟨1, 1000000⟩ = true := by
  decide

/-- Helper: the digit character of a digit parses back to it. -/
theorem digitVal_digitChar (d : Nat) (hd : d < 10) :
    digitVal? (digitChar d) = some d := by
  interval_cases d <;> decide

/-- Helper: the digit parse of a rendered positive number recovers it. -/
theorem digitsFold_natDigitsAux :
    ∀ (fuel n : Nat), 0 < n → n ≤ fuel →
      (natDigitsAux fuel n).reverse.foldl digitStep (some 0) = some n := by
  intro fuel
  induction fuel with
  | zero => intro n h1 h2; omega
  | succ f ih =>
    intro n h1 h2
    have hstep : natDigitsAux (f + 1) n = digitChar (n % 10) :: natDigitsAux f (n / 10) := by
      show (if n = 0 then [] else digitChar (n % 10) :: natDigitsAux f (n / 10)) = _
      rw [if_neg (by omega)]
    rw [hstep, List.reverse_cons, List.foldl_append]
    by_cases hq : n / 10 = 0
    · rw [hq]
      show digitStep ((natDigitsAux f 0).reverse.foldl digitStep (some 0)) (digitChar (n % 10)) = some n
      have h0 : natDigitsAux f 0 = [] := by
        cases f with
        | zero => rfl
        | succ f2 => show (if 0 = 0 then [] else _) = []; rw [if_pos rfl]
      rw [h0]
      show digitStep (some 0) (digitChar (n % 10)) = some n
      unfold digitStep
      rw [digitVal_digitChar _ (Nat.mod_lt n (by omega))]
      show some (0 * 10 + n % 10) = some n
      congr 1
      omega
    · rw [ih (n / 10) (by omega) (by
        have := Nat.div_lt_self h1 (by omega : (1 : Nat) < 10)
        omega)]
      show digitStep (some (n / 10)) (digitChar (n % 10)) = some n
      unfold digitStep
      rw [digitVal_digitChar _ (Nat.mod_lt n (by omega))]
      show some (n / 10 * 10 + n % 10) = some n
      congr 1
      omega

/-- Helper: every rendered character is a digit character. -/
theorem natDigitsAux_mem_digit :
    ∀ (fuel k : Nat) (c : Char), c ∈ natDigitsAux fuel k →
      ∃ d, d < 10 ∧ c = digitChar d := by
  intro fuel
  induction fuel with
  | zero => intro k c hc; simp [natDigitsAux] at hc
  | succ f ih =>
    intro k c hc
    by_cases hk : k = 0
    · subst hk; simp [natDigitsAux] at hc
    · have hc' : c ∈ digitChar (k % 10) :: natDigitsAux f (k / 10) := by
        simpa [natDigitsAux, hk] using hc
      rcases List.mem_cons.mp hc' with h1 | h2
      · exact ⟨k % 10, Nat.mod_lt k (by omega), h1⟩
      · exact ih (k / 10) c h2

/-- Helper: rendered numbers parse back to themselves. -/
theorem pyInt_natToStr (n : Nat) : pyInt? (natToStr n) = some (n : Int) := by
  by_cases h0 : n = 0
  · subst h0; decide
  · unfold natToStr
    rw [if_neg h0]
    obtain ⟨c, cs, hcs⟩ : ∃ c cs, (natDigitsAux n n).reverse = c :: cs := by
      cases hr : (natDigitsAux n n).reverse with
      | nil =>
        have hnil : natDigitsAux n n = [] := by simpa using congrArg List.reverse hr
        cases hn : n with
        | zero => exact absurd hn h0
        | succ k =>
          rw [hn] at hnil
          have : natDigitsAux (k + 1) (k + 1) = digitChar ((k + 1) % 10) :: natDigitsAux k ((k + 1) / 10) := by
            show (if k + 1 = 0 then [] else _) = _
            rw [if_neg (by omega)]
          rw [this] at hnil
          exact absurd hnil (by simp)
      | cons c cs => exact ⟨c, cs, rfl⟩
    have hcmem : c ∈ natDigitsAux n n := by
      rw [← List.mem_reverse, hcs]
      exact List.mem_cons_self _ _
    obtain ⟨d, hd10, hcd⟩ := natDigitsAux_mem_digit n n c hcmem
    have hcne : ¬ c = '-' := by
      subst hcd
      interval_cases d <;> decide
    show pyInt? (String.mk ((natDigitsAux n n).reverse)) = some (n : Int)
    unfold pyInt?
    simp only [hcs]
    rw [if_neg hcne]
    have hfold : digitsToNat (c :: cs) = some n := by
      have hf := digitsFold_natDigitsAux n n (by omega) (le_refl n)
      rw [hcs] at hf
      unfold digitsToNat
      exact hf
    rw [hfold]
    rfl

/-- Helper: the suffix scan never goes below its seed. -/
theorem scanFold_ge_seed (pfx : String) :
    ∀ (nds : List Node) (acc : Int), acc ≤ nds.foldl (scanStep pfx) acc := by
  intro nds
  induction nds with
  | nil => intro acc; exact le_refl acc
  | cons nd rest ih =>
    intro acc
    rw [List.foldl_cons]
    refine le_trans ?_ (ih (scanStep pfx acc nd))
    unfold scanStep
    by_cases hs : strStartsWith nd.name pfx
    · rw [if_pos hs]
      cases pyInt? (strDropLen nd.name pfx.length) with
      | none => exact le_refl acc
      | some k => exact le_max_right _ _
    · rw [if_neg hs]

/-- Helper: the suffix scan dominates the parsed suffix of every
prefix-matching name, plus one. -/
theorem scanSuffix_ge (pfx : String) :
    ∀ (nds : List Node) (acc : Int) (nd : Node) (k : Int), nd ∈ nds →
      strStartsWith nd.name pfx = true →
      pyInt? (strDropLen nd.name pfx.length) = some k →
      k + 1 ≤ nds.foldl (scanStep pfx) acc := by
  intro nds
  induction nds with
  | nil => intro acc nd k h; exact absurd h (List.not_mem_nil nd)
  | cons nd0 rest ih =>
    intro acc nd k hmem hs hk
    rw [List.foldl_cons]
    rcases List.mem_cons.mp hmem with h1 | h2
    · subst h1
      refine le_trans ?_ (scanFold_ge_seed pfx rest _)
      unfold scanStep
      rw [if_pos hs, hk]
      exact le_max_left _ _
    · exact ih _ nd k h2 hs hk

/-- Helper: the scan-seeded suffix is non-negative. -/
theorem scanSuffix_nonneg (pfx : String) (nds : List Node) :
    0 ≤ scanSuffix pfx nds :=
  scanFold_ge_seed pfx nds 0

/-- Helper: a string extended by a rendered suffix starts with the
original string. -/
theorem strStartsWith_append (p t : String) : strStartsWith (p ++ t) p = true := by
  unfold strStartsWith
  rw [String.data_append]
  exact List.isPrefixOf_iff_prefix.mpr (List.prefix_append _ _)

/-- Helper: dropping the original string's length recovers the rendered
suffix. -/
theorem strDropLen_append (p t : String) : strDropLen (p ++ t) p.length = t := by
  unfold strDropLen
  rw [String.data_append]
  show String.mk ((p.data ++ t.data).drop p.data.length) = t
  rw [List.drop_left]

/-- Helper: string concatenation cancels on the left. -/
theorem strAppend_cancel (p a b : String) (h : p ++ a = p ++ b) : a = b := by
  have hd : p.data ++ a.data = p.data ++ b.data := by
    rw [← String.data_append, ← String.data_append, h]
  exact String.ext (List.append_cancel_left hd)

/-- Helper: unfolding of one mint when the ledger covers the prefix. -/
theorem create_node_name_ledger (m : OModel) (op : String) (np : Option String)
    (v : Int) (h : m.ledger.lookup (mintPfx op np) = some v) :
    (create_node_name m op np).1 = mintPfx op np ++ renderSuffix (v + 1)
    ∧ (create_node_name m op np).2.ledger = (mintPfx op np, v + 1) :: m.ledger
    ∧ (create_node_name m op np).2.nodes = m.nodes := by
  simp only [create_node_name, h]
  exact ⟨trivial, trivial, rfl⟩

/-- Helper: unfolding of one mint when the prefix is scanned. -/
theorem create_node_name_scan (m : OModel) (op : String) (np : Option String)
    (h : m.ledger.lookup (mintPfx op np) = none) :
    (create_node_name m op np).1 =
      mintPfx op np ++ renderSuffix (scanSuffix (mintPfx op np) m.nodes)
    ∧ (create_node_name m op np).2.ledger =
      (mintPfx op np, scanSuffix (mintPfx op np) m.nodes) :: m.ledger
    ∧ (create_node_name m op np).2.nodes = m.nodes := by
  simp only [create_node_name, h]
  exact ⟨trivial, trivial, rfl⟩

/-- Helper: consecutive suffixes render to different strings, whatever
the sign of the suffix. -/
theorem renderSuffix_succ_ne (s : Int) : ¬ renderSuffix s = renderSuffix (s + 1) := by
  by_cases h0 : 0 ≤ s
  · intro heq
    have hp1 : pyInt? (renderSuffix s) = some s := by
      unfold renderSuffix
      rw [if_neg (by omega), pyInt_natToStr, Int.toNat_of_nonneg h0]
    have hp2 : pyInt? (renderSuffix (s + 1)) = some (s + 1) := by
      unfold renderSuffix
      rw [if_neg (by omega), pyInt_natToStr, Int.toNat_of_nonneg (by omega)]
    rw [heq, hp2] at hp1
    injection hp1 with hp1
    omega
  · push_neg at h0
    by_cases h1 : s + 1 < 0
    · intro heq
      have e1 : renderSuffix s = "-" ++ natToStr s.natAbs := by
        unfold renderSuffix
        rw [if_pos (by omega)]
      have e2 : renderSuffix (s + 1) = "-" ++ natToStr (s + 1).natAbs := by
        unfold renderSuffix
        rw [if_pos h1]
      rw [e1, e2] at heq
      have heq3 := strAppend_cancel _ _ _ heq
      have hp1 : pyInt? (natToStr s.natAbs) = some (s.natAbs : Int) := pyInt_natToStr _
      have hp2 : pyInt? (natToStr (s + 1).natAbs) = some ((s + 1).natAbs : Int) :=
        pyInt_natToStr _
      rw [heq3, hp2] at hp1
      injection hp1 with hp1
      omega
    · have hs : s = -1 := by omega
      rw [hs]
      decide

/-- C9 (amended): two consecutive mints with the same operator type or
prefix and no intervening mutation always return distinct names; and,
provided the ledger entry for the prefix, when one exists, dominates
every parsed numeric suffix of the prefix-matching node names (which
holds whenever all such names were minted through the ledger), both
names are also absent from every node name present before either
call. -/
theorem create_node_name_fresh (m : OModel) (op : String) (np : Option String) :
    ¬ (create_node_name m op np).1 = (create_node_name (create_node_name m op np).2 op np).1
    ∧ ((∀ v, m.ledger.lookup (mintPfx op np) = some v →
          0 ≤ v ∧ ∀ nd ∈ m.nodes, ∀ k : Int,
            strStartsWith nd.name (mintPfx op np) = true →
            pyInt? (strDropLen nd.name (mintPfx op np).length) = some k → k ≤ v) →
        ∀ nd ∈ m.nodes,
          ¬ nd.name = (create_node_name m op np).1
          ∧ ¬ nd.name = (create_node_name (create_node_name m op np).2 op np).1) := by
  set pfx := mintPfx op np with hpfx
  have hparse : ∀ s : Int, 0 ≤ s → pyInt? (renderSuffix s) = some s := by
    intro s hs
    unfold renderSuffix
    rw [if_neg (by omega), pyInt_natToStr, Int.toNat_of_nonneg hs]
  have key0 : ∃ s1 : Int,
      (create_node_name m op np).1 = pfx ++ renderSuffix s1
      ∧ (create_node_name (create_node_name m op np).2 op np).1
        = pfx ++ renderSuffix (s1 + 1)
      ∧ (m.ledger.lookup pfx = none → s1 = scanSuffix pfx m.nodes)
      ∧ ∀ v, m.ledger.lookup pfx = some v → s1 = v + 1 := by
    cases hlk : m.ledger.lookup pfx with
    | some v =>
      obtain ⟨hname1, hled1, -⟩ := create_node_name_ledger m op np v (hpfx ▸ hlk)
      obtain ⟨hname2, -, -⟩ := create_node_name_ledger (create_node_name m op np).2 op np
        (v + 1) (by rw [hled1]; simp [List.lookup])
      refine ⟨v + 1, hname1, hname2, by simp, ?_⟩
      intro v2 hv2
      injection hv2 with hv2
      omega
    | none =>
      obtain ⟨hname1, hled1, -⟩ := create_node_name_scan m op np (hpfx ▸ hlk)
      obtain ⟨hname2, -, -⟩ := create_node_name_ledger (create_node_name m op np).2 op np
        (scanSuffix pfx m.nodes) (by rw [hled1]; simp [List.lookup])
      refine ⟨scanSuffix pfx m.nodes, hname1, hname2, fun _ => rfl, ?_⟩
      intro v2 hv2
      exact absurd hv2 (by simp)
  obtain ⟨s1, hn1, hn2, hscan, hledg⟩ := key0
  refine ⟨?_, ?_⟩
  · intro heq
    rw [hn1, hn2] at heq
    exact renderSuffix_succ_ne s1 (strAppend_cancel _ _ _ heq)
  · intro hdom
    have habs : ∀ nd ∈ m.nodes, ∀ t : Int, s1 ≤ t → ¬ nd.name = pfx ++ renderSuffix t := by
      cases hlk : m.ledger.lookup pfx with
      | some v =>
        obtain ⟨hv0, hvdom⟩ := hdom v hlk
        have hs1v : s1 = v + 1 := hledg v hlk
        intro nd hnd t ht heq
        have hk := hvdom nd hnd t
          (heq ▸ strStartsWith_append pfx _)
          (by rw [heq, strDropLen_append, hparse _ (by omega)])
        omega
      | none =>
        have hs1s : s1 = scanSuffix pfx m.nodes := hscan hlk
        intro nd hnd t ht heq
        have hsn := scanSuffix_nonneg pfx m.nodes
        have hk := scanSuffix_ge pfx m.nodes 0 nd t hnd
          (heq ▸ strStartsWith_append pfx _)
          (by rw [heq, strDropLen_append, hparse _ (by omega)])
        unfold scanSuffix at hs1s
        omega
    intro nd hnd
    exact ⟨fun h => habs nd hnd s1 (le_refl s1) (hn1 ▸ h),
      fun h => habs nd hnd (s1 + 1) (by omega) (hn2 ▸ h)⟩

/-- Witness for C9: the two mints on a session with an untouched ledger
are distinct and avoid the existing names, and the two mints on the
lagging-ledger session (where the domination proviso fails) are still
distinct. -/
theorem create_node_name_fresh_witness :
    ¬ (create_node_name exMintModel2 "Add" none).1 =
        (create_node_name (create_node_name exMintModel2 "Add" none).2 "Add" none).1
    ∧ (∀ nd ∈ exMintModel2.nodes,
        ¬ nd.name = (create_node_name exMintModel2 "Add" none).1
        ∧ ¬ nd.name =
            (create_node_name (create_node_name exMintModel2 "Add" none).2 "Add" none).1)
    ∧ ¬ (create_node_name exMintModel "Add" none).1 =
        (create_node_name (create_node_name exMintModel "Add" none).2 "Add" none).1 :=
  ⟨(create_node_name_fresh exMintModel2 "Add" none).1,
   (create_node_name_fresh exMintModel2 "Add" none).2
     (fun v h => absurd h (by simp [exMintModel2, List.lookup])),
   (create_node_name_fresh exMintModel "Add" none).1⟩

/-- C9 counterexample: with a ledger entry lagging behind a node name
added after it was recorded (both reachable through the public mutation
interface), the first of two consecutive mints returns a name already
present in the graph. -/
theorem create_node_name_collision_counterexample :
    (create_node_name exMintModel "Add" none).1 = "Add_1"
    ∧ exAdd1 ∈ exMintModel.nodes
    ∧ exAdd1.name = "Add_1" := by
  refine ⟨?_, by decide, rfl⟩
  rw [(create_node_name_ledger exMintModel "Add" none 0 (by decide)).1]
  decide

/-- Helper: the multi-hop walk returns exactly the full chains: a list is
returned iff it has one matched node per hop, each hop anchored at the
previous hop's parent. -/
theorem matchParentPathAux_spec (omap : String → Option Node) :
    ∀ (pairs : List (String × Option Nat)) (nd : Node) (l : List Node),
      matchParentPathAux omap nd pairs = some l ↔
        (l.length = pairs.length
          ∧ chainMatches omap nd (pairs.map Prod.fst) (pairs.map Prod.snd) l) := by
  intro pairs
  induction pairs with
  | nil =>
    intro nd l
    constructor
    · intro h
      unfold matchParentPathAux at h
      injection h with h
      subst h
      exact ⟨rfl, trivial⟩
    · rintro ⟨hl, -⟩
      cases l with
      | nil => rfl
      | cons a t => simp at hl
  | cons p rest ih =>
    intro nd l
    obtain ⟨t, i⟩ := p
    constructor
    · intro h
      unfold matchParentPathAux at h
      cases hmp : match_parent omap nd t i [] with
      | none => rw [hmp] at h; simp at h
      | some par =>
        rw [hmp] at h
        have h2 : Option.map (fun l => par :: l) (matchParentPathAux omap par rest) = some l := h
        cases hrec : matchParentPathAux omap par rest with
        | none => rw [hrec] at h2; simp at h2
        | some l2 =>
          rw [hrec] at h2
          simp only [Option.map_some', Option.some.injEq] at h2
          subst h2
          obtain ⟨hlen2, hchain2⟩ := (ih par l2).mp hrec
          refine ⟨by simp [hlen2], ?_⟩
          show match_parent omap nd t i [] = some par
            ∧ chainMatches omap par (rest.map Prod.fst) (rest.map Prod.snd) l2
          exact ⟨hmp, hchain2⟩
    · rintro ⟨hl, hchain⟩
      cases l with
      | nil => simp at hl
      | cons par l2 =>
        have hchain' : match_parent omap nd t i [] = some par
            ∧ chainMatches omap par (rest.map Prod.fst) (rest.map Prod.snd) l2 := hchain
        obtain ⟨hmp, hchain2⟩ := hchain'
        unfold matchParentPathAux
        rw [hmp]
        show Option.map (fun l => par :: l) (matchParentPathAux omap par rest) = some (par :: l2)
        rw [(ih par l2).mpr ⟨by simpa using hl, hchain2⟩]
        rfl

/-- C1: the multi-hop matcher is all-or-nothing.  With constraint lists
of equal length, `match_parent_path` returns a list exactly when that
list matches hop for hop — one node per operator-type constraint, hop
`i`'s subject being hop `i-1`'s matched parent, a null index entry
giving first-match semantics through `match_parent` — so a returned list
always has length `len(types)`, and any failing hop makes the whole call
return `none` with no partial result. -/
theorem match_parent_path_all_or_nothing (omap : String → Option Node)
    (nd : Node) (types : List String) (idxs : List (Option Nat))
    (hlen : types.length = idxs.length) :
    ∀ l, match_parent_path omap nd types idxs = some l ↔
      (l.length = types.length ∧ chainMatches omap nd types idxs l) := by
  intro l
  unfold match_parent_path
  rw [if_pos hlen]
  have h := matchParentPathAux_spec omap (types.zip idxs) nd l
  rw [List.map_fst_zip _ _ (le_of_eq hlen), List.map_snd_zip _ _ (le_of_eq hlen.symm),
    List.length_zip, hlen, min_self] at h
  rw [← hlen] at h
  exact h

/-- Witness for C1 on a concrete one-hop chain through the producer
index. -/
theorem match_parent_path_all_or_nothing_witness :
    ([exP] : List Node).length = (["Op"] : List String).length
    ∧ chainMatches (outputNameToNode exChainModel) exQ ["Op"] [some 0] [exP] :=
  (match_parent_path_all_or_nothing (outputNameToNode exChainModel) exQ
    ["Op"] [some 0] (by decide) [exP]).mp (by decide)

/-- C8 counterexample: on a two-node value cycle the searches for an
absent operator type, lacking any visited set, revisit the same queue
states forever — no amount of fuel makes `find_first_child_by_type` or
`find_first_parent_by_type` return, against the claim that every
traversal returns on any finite node set. -/
theorem unvisited_search_diverges_counterexample :
    ffcDiverges cycModel cycA "C" true ∧ ffpDiverges cycModel cycA "C" true := by
  constructor
  · intro fuel
    unfold find_first_child_by_type
    have key : ∀ f, ffcRun cycModel "C" true f [cycB] = none
        ∧ ffcRun cycModel "C" true f [cycA] = none := by
      intro f
      induction f with
      | zero => exact ⟨rfl, rfl⟩
      | succ f2 ih =>
        constructor
        · show ffcRun cycModel "C" true (f2 + 1) [cycB] = none
          unfold ffcRun
          rw [(by decide : ffcStep cycModel "C" true [cycB] = Sum.inr [cycA])]
          exact ih.2
        · show ffcRun cycModel "C" true (f2 + 1) [cycA] = none
          unfold ffcRun
          rw [(by decide : ffcStep cycModel "C" true [cycA] = Sum.inr [cycB])]
          exact ih.1
    rw [(by decide : (get_children cycModel cycA).reverse = [cycB])]
    exact (key fuel).1
  · intro fuel
    unfold find_first_parent_by_type
    have key : ∀ f, ffpRun cycModel "C" true f [cycB] = none
        ∧ ffpRun cycModel "C" true f [cycA] = none := by
      intro f
      induction f with
      | zero => exact ⟨rfl, rfl⟩
      | succ f2 ih =>
        constructor
        · show ffpRun cycModel "C" true (f2 + 1) [cycB] = none
          unfold ffpRun
          rw [(by decide : ffpStep cycModel "C" true [cycB] = Sum.inr [cycA])]
          exact ih.2
        · show ffpRun cycModel "C" true (f2 + 1) [cycA] = none
          unfold ffpRun
          rw [(by decide : ffpStep cycModel "C" true [cycA] = Sum.inr [cycB])]
          exact ih.1
    rw [(by decide : (get_parents cycModel cycA).reverse = [cycB])]
    exact (key fuel).1

/-- Helper: a member of a list is bounded by the fold of `max`. -/
theorem le_foldr_max : ∀ (l : List Nat) (a : Nat), a ∈ l → a ≤ l.foldr max 0 := by
  intro l
  induction l with
  | nil => intro a h; exact absurd h (List.not_mem_nil a)
  | cons b rest ih =>
    intro a h
    rcases List.mem_cons.mp h with h1 | h2
    · subst h1; exact le_max_left _ _
    · exact le_trans (ih a h2) (le_max_right _ _)

/-- Helper: consumers come from the session's node collection. -/
theorem mem_inputNameToNodes (m : OModel) (x : String) (v : Node)
    (h : v ∈ inputNameToNodes m x) : v ∈ m.nodes := by
  unfold inputNameToNodes at h
  obtain ⟨nd, hnd, hv⟩ := List.mem_flatMap.mp h
  obtain ⟨i, -, hvi⟩ := List.mem_map.mp hv
  exact hvi ▸ hnd

/-- Helper: children come from the session's node collection. -/
theorem mem_get_children (m : OModel) (nd v : Node)
    (h : v ∈ get_children m nd) : v ∈ m.nodes := by
  unfold get_children at h
  obtain ⟨o, -, hv⟩ := List.mem_flatMap.mp h
  exact mem_inputNameToNodes m o v hv

/-- Helper: the per-node child count is bounded by `maxChildCount`. -/
theorem get_children_length_le (m : OModel) (c : Node) (hc : c ∈ m.nodes) :
    (get_children m c).length ≤ maxChildCount m :=
  le_foldr_max _ _ (List.mem_map.mpr ⟨c, hc, rfl⟩)

/-- Helper: visiting a new node strictly shrinks the unvisited count. -/
theorem countP_unvisited_drop :
    ∀ (l vis : List Node) (c : Node), c ∈ l → ¬ c ∈ vis →
      l.countP (fun v => decide (¬ v ∈ vis ++ [c])) + 1 ≤
        l.countP (fun v => decide (¬ v ∈ vis)) := by
  intro l
  induction l with
  | nil => intro vis c hc _; exact absurd hc (List.not_mem_nil c)
  | cons a rest ih =>
    intro vis c hc hcv
    rw [List.countP_cons, List.countP_cons]
    have hmono : rest.countP (fun v => decide (¬ v ∈ vis ++ [c])) ≤
        rest.countP (fun v => decide (¬ v ∈ vis)) :=
      List.countP_mono_left (fun v _ => by
        simp only [decide_eq_true_eq, List.mem_append]
        tauto)
    by_cases hac : a = c
    · have hda : decide (¬ a ∈ vis ++ [c]) = false := by subst hac; simp
      have hdb : decide (¬ a ∈ vis) = true := by subst hac; simpa using hcv
      rw [hda, hdb, if_neg Bool.false_ne_true, if_pos rfl]
      omega
    · rcases List.mem_cons.mp hc with h1 | h2
      · exact absurd h1.symm hac
      · have hrest := ih vis c h2 hcv
        by_cases hm : a ∈ vis ++ [c]
        · have hda : decide (¬ a ∈ vis ++ [c]) = false := decide_eq_false (not_not_intro hm)
          rw [hda, if_neg Bool.false_ne_true]
          cases hdb : decide (¬ a ∈ vis) with
          | false => rw [if_neg Bool.false_ne_true]; omega
          | true => rw [if_pos rfl]; omega
        · have hda : decide (¬ a ∈ vis ++ [c]) = true := decide_eq_true hm
          have hdb : decide (¬ a ∈ vis) = true :=
            decide_eq_true (fun hv => hm (List.mem_append.mpr (Or.inl hv)))
          rw [hda, hdb, if_pos rfl]
          omega

/-- Helper: the visited-set worklist finishes within the stated fuel:
every step either consumes a queue entry or visits a node value it never
revisits. -/
theorem gcsnAux_some (m : OModel) (stop : List Node) :
    ∀ (fuel : Nat) (visited q : List Node),
      (∀ c ∈ q, c ∈ m.nodes) →
      q.length + (m.nodes.countP (fun v => decide (¬ v ∈ visited))) * (maxChildCount m + 1) < fuel →
      ∃ l, gcsnAux m stop fuel visited q = some l := by
  intro fuel
  induction fuel with
  | zero => intro visited q hq hlt; omega
  | succ f ih =>
    intro visited q hq hlt
    cases q with
    | nil => exact ⟨visited, rfl⟩
    | cons c rest =>
      rw [List.length_cons] at hlt
      by_cases hstop : c ∈ stop
      · obtain ⟨l, hl⟩ := ih visited rest (fun v hv => hq v (List.mem_cons_of_mem c hv))
          (by omega)
        refine ⟨l, ?_⟩
        show (if c ∈ stop then gcsnAux m stop f visited rest
          else if c ∈ visited then gcsnAux m stop f visited rest
          else gcsnAux m stop f (visited ++ [c]) (rest ++ get_children m c)) = some l
        rw [if_pos hstop]
        exact hl
      · by_cases hvis : c ∈ visited
        · obtain ⟨l, hl⟩ := ih visited rest (fun v hv => hq v (List.mem_cons_of_mem c hv))
            (by omega)
          refine ⟨l, ?_⟩
          show (if c ∈ stop then gcsnAux m stop f visited rest
            else if c ∈ visited then gcsnAux m stop f visited rest
            else gcsnAux m stop f (visited ++ [c]) (rest ++ get_children m c)) = some l
          rw [if_neg hstop, if_pos hvis]
          exact hl
        · have hcm : c ∈ m.nodes := hq c (List.mem_cons_self c rest)
          have hkids : (get_children m c).length ≤ maxChildCount m :=
            get_children_length_le m c hcm
          have hdrop := countP_unvisited_drop m.nodes visited c hcm hvis
          obtain ⟨l, hl⟩ := ih (visited ++ [c]) (rest ++ get_children m c)
            (by
              intro v hv
              rcases List.mem_append.mp hv with h1 | h2
              · exact hq v (List.mem_cons_of_mem c h1)
              · exact mem_get_children m c v h2)
            (by
              rw [List.length_append]
              have hmul : (m.nodes.countP (fun v => decide (¬ v ∈ visited ++ [c]))) * (maxChildCount m + 1)
                  + (maxChildCount m + 1) ≤
                  (m.nodes.countP (fun v => decide (¬ v ∈ visited))) * (maxChildCount m + 1) := by
                have := Nat.mul_le_mul_right (maxChildCount m + 1) hdrop
                calc (m.nodes.countP (fun v => decide (¬ v ∈ visited ++ [c]))) * (maxChildCount m + 1)
                    + (maxChildCount m + 1)
                    = ((m.nodes.countP (fun v => decide (¬ v ∈ visited ++ [c]))) + 1) * (maxChildCount m + 1) := by ring
                  _ ≤ _ := this
              omega)
          refine ⟨l, ?_⟩
          show (if c ∈ stop then gcsnAux m stop f visited rest
            else if c ∈ visited then gcsnAux m stop f visited rest
            else gcsnAux m stop f (visited ++ [c]) (rest ++ get_children m c)) = some l
          rw [if_neg hstop, if_neg hvis]
          exact hl

/-- Helper: the worklist records each node value at most once. -/
theorem gcsnAux_nodup (m : OModel) (stop : List Node) :
    ∀ (fuel : Nat) (visited q l : List Node),
      gcsnAux m stop fuel visited q = some l → visited.Nodup → l.Nodup := by
  intro fuel
  induction fuel with
  | zero => intro visited q l h; exact absurd h (by simp [gcsnAux])
  | succ f ih =>
    intro visited q l h hvd
    cases q with
    | nil =>
      have hl : visited = l := by
        have : some visited = some l := h
        injection this
      exact hl ▸ hvd
    | cons c rest =>
      have h' : (if c ∈ stop then gcsnAux m stop f visited rest
          else if c ∈ visited then gcsnAux m stop f visited rest
          else gcsnAux m stop f (visited ++ [c]) (rest ++ get_children m c)) = some l := h
      by_cases hstop : c ∈ stop
      · rw [if_pos hstop] at h'
        exact ih visited rest l h' hvd
      · by_cases hvis : c ∈ visited
        · rw [if_neg hstop, if_pos hvis] at h'
          exact ih visited rest l h' hvd
        · rw [if_neg hstop, if_neg hvis] at h'
          refine ih (visited ++ [c]) (rest ++ get_children m c) l h' ?_
          simp [List.nodup_append, hvd, hvis]

/-- Helper: producers come from the session's node collection. -/
theorem mem_outputNameToNode (m : OModel) (x : String) (v : Node)
    (h : outputNameToNode m x = some v) : v ∈ m.nodes := by
  unfold outputNameToNode at h
  exact List.mem_reverse.mp (List.mem_of_find?_eq_some h)

/-- Helper: parents come from the session's node collection. -/
theorem mem_get_parents (m : OModel) (nd v : Node)
    (h : v ∈ get_parents m nd) : v ∈ m.nodes := by
  unfold get_parents at h
  obtain ⟨i, -, hv⟩ := List.mem_filterMap.mp h
  exact mem_outputNameToNode m i v hv

/-- Helper: the per-node parent count is bounded by `maxParentCount`. -/
theorem get_parents_length_le (m : OModel) (c : Node) (hc : c ∈ m.nodes) :
    (get_parents m c).length ≤ maxParentCount m :=
  le_foldr_max _ _ (List.mem_map.mpr ⟨c, hc, rfl⟩)

/-- Helper: the upstream visited-set worklist finishes within the stated
fuel: every step either consumes a queue entry or visits a node value it
never revisits. -/
theorem gpsnAux_some (m : OModel) (stop : List Node) :
    ∀ (fuel : Nat) (visited q : List Node),
      (∀ c ∈ q, c ∈ m.nodes) →
      q.length + (m.nodes.countP (fun v => decide (¬ v ∈ visited))) * (maxParentCount m + 1) < fuel →
      ∃ l, gpsnAux m stop fuel visited q = some l := by
  intro fuel
  induction fuel with
  | zero => intro visited q hq hlt; omega
  | succ f ih =>
    intro visited q hq hlt
    cases q with
    | nil => exact ⟨visited, rfl⟩
    | cons c rest =>
      rw [List.length_cons] at hlt
      by_cases hstop : c ∈ stop
      · obtain ⟨l, hl⟩ := ih visited rest (fun v hv => hq v (List.mem_cons_of_mem c hv))
          (by omega)
        refine ⟨l, ?_⟩
        show (if c ∈ stop then gpsnAux m stop f visited rest
          else if c ∈ visited then gpsnAux m stop f visited rest
          else gpsnAux m stop f (visited ++ [c]) (rest ++ get_parents m c)) = some l
        rw [if_pos hstop]
        exact hl
      · by_cases hvis : c ∈ visited
        · obtain ⟨l, hl⟩ := ih visited rest (fun v hv => hq v (List.mem_cons_of_mem c hv))
            (by omega)
          refine ⟨l, ?_⟩
          show (if c ∈ stop then gpsnAux m stop f visited rest
            else if c ∈ visited then gpsnAux m stop f visited rest
            else gpsnAux m stop f (visited ++ [c]) (rest ++ get_parents m c)) = some l
          rw [if_neg hstop, if_pos hvis]
          exact hl
        · have hcm : c ∈ m.nodes := hq c (List.mem_cons_self c rest)
          have hpar : (get_parents m c).length ≤ maxParentCount m :=
            get_parents_length_le m c hcm
          have hdrop := countP_unvisited_drop m.nodes visited c hcm hvis
          obtain ⟨l, hl⟩ := ih (visited ++ [c]) (rest ++ get_parents m c)
            (by
              intro v hv
              rcases List.mem_append.mp hv with h1 | h2
              · exact hq v (List.mem_cons_of_mem c h1)
              · exact mem_get_parents m c v h2)
            (by
              rw [List.length_append]
              have hmul : (m.nodes.countP (fun v => decide (¬ v ∈ visited ++ [c]))) * (maxParentCount m + 1)
                  + (maxParentCount m + 1) ≤
                  (m.nodes.countP (fun v => decide (¬ v ∈ visited))) * (maxParentCount m + 1) := by
                have := Nat.mul_le_mul_right (maxParentCount m + 1) hdrop
                calc (m.nodes.countP (fun v => decide (¬ v ∈ visited ++ [c]))) * (maxParentCount m + 1)
                    + (maxParentCount m + 1)
                    = ((m.nodes.countP (fun v => decide (¬ v ∈ visited ++ [c]))) + 1) * (maxParentCount m + 1) := by ring
                  _ ≤ _ := this
              omega)
          refine ⟨l, ?_⟩
          show (if c ∈ stop then gpsnAux m stop f visited rest
            else if c ∈ visited then gpsnAux m stop f visited rest
            else gpsnAux m stop f (visited ++ [c]) (rest ++ get_parents m c)) = some l
          rw [if_neg hstop, if_neg hvis]
          exact hl

/-- Helper: the upstream worklist records each node value at most once. -/
theorem gpsnAux_nodup (m : OModel) (stop : List Node) :
    ∀ (fuel : Nat) (visited q l : List Node),
      gpsnAux m stop fuel visited q = some l → visited.Nodup → l.Nodup := by
  intro fuel
  induction fuel with
  | zero => intro visited q l h; exact absurd h (by simp [gpsnAux])
  | succ f ih =>
    intro visited q l h hvd
    cases q with
    | nil =>
      have hl : visited = l := by
        have h2 : some visited = some l := h
        injection h2
      exact hl ▸ hvd
    | cons c rest =>
      have h2 : (if c ∈ stop then gpsnAux m stop f visited rest
          else if c ∈ visited then gpsnAux m stop f visited rest
          else gpsnAux m stop f (visited ++ [c]) (rest ++ get_parents m c)) = some l := h
      by_cases hstop : c ∈ stop
      · rw [if_pos hstop] at h2
        exact ih visited rest l h2 hvd
      · by_cases hvis : c ∈ visited
        · rw [if_neg hstop, if_pos hvis] at h2
          exact ih visited rest l h2 hvd
        · rw [if_neg hstop, if_neg hvis] at h2
          refine ih (visited ++ [c]) (rest ++ get_parents m c) l h2 ?_
          simp [List.nodup_append, hvd, hvis]

/-- C8 (amended): the traversals that maintain a visited set terminate on
every finite node set, cyclic ones included, and process each node value
at most once: whatever its entry outcome, a finished
`get_children_subgraph_nodes` call yields a duplicate-free collection,
and `get_parent_subgraph_nodes` always finishes with a duplicate-free
collection — whereas `find_first_child_by_type` and
`find_first_parent_by_type`, which keep no visited set, need not return
on a cyclic node set (see the divergence counterexample). -/
theorem visited_traversal_terminates (m : OModel) (root : Node) (stop : List Node) :
    (∀ o, get_children_subgraph_nodes m root stop = some o →
      ∃ l, o = some l ∧ l.Nodup)
    ∧ (∃ l, get_parent_subgraph_nodes m root stop = some l ∧ l.Nodup) := by
  constructor
  · intro o h
    unfold get_children_subgraph_nodes at h
    cases hout : root.output with
    | nil => rw [hout] at h; exact absurd h (by simp)
    | cons x rest =>
      rw [hout] at h
      have h2 : (if inputNameToNodes m x = [] then none
          else some (gcsnAux m stop (gcsnFuel m (inputNameToNodes m x).reverse) []
            (inputNameToNodes m x).reverse)) = some o := h
      by_cases hcs : inputNameToNodes m x = []
      · rw [if_pos hcs] at h2
        exact absurd h2 (by simp)
      · rw [if_neg hcs] at h2
        obtain ⟨l, hl⟩ := gcsnAux_some m stop (gcsnFuel m (inputNameToNodes m x).reverse)
          [] (inputNameToNodes m x).reverse
          (fun c hc => mem_inputNameToNodes m x c (List.mem_reverse.mp hc))
          (by
            unfold gcsnFuel
            have hcount : m.nodes.countP (fun v => decide (¬ v ∈ ([] : List Node))) ≤ m.nodes.length := by
              exact List.countP_le_length _
            have hmul := Nat.mul_le_mul_right (maxChildCount m + 1) hcount
            omega)
        refine ⟨l, ?_, gcsnAux_nodup m stop _ [] _ l hl List.nodup_nil⟩
        injection h2 with h2
        rw [← h2, hl]
  · unfold get_parent_subgraph_nodes
    obtain ⟨l, hl⟩ := gpsnAux_some m stop (gpsnFuel m (get_parents m root).reverse)
      [] (get_parents m root).reverse
      (fun c hc => mem_get_parents m root c (List.mem_reverse.mp hc))
      (by
        unfold gpsnFuel
        have hcount : m.nodes.countP (fun v => decide (¬ v ∈ ([] : List Node))) ≤ m.nodes.length := by
          exact List.countP_le_length _
        have hmul := Nat.mul_le_mul_right (maxParentCount m + 1) hcount
        omega)
    exact ⟨l, hl, gpsnAux_nodup m stop _ [] _ l hl List.nodup_nil⟩

/-- Witness for C8 on the cyclic session: both visited-set traversals
finish there with duplicate-free collections. -/
theorem visited_traversal_terminates_witness :
    (∃ l, (some [cycB, cycA] : Option (List Node)) = some l ∧ l.Nodup)
    ∧ (∃ l, get_parent_subgraph_nodes cycModel cycA [] = some l ∧ l.Nodup) :=
  ⟨(visited_traversal_terminates cycModel cycA []).1 (some [cycB, cycA]) (by decide),
   (visited_traversal_terminates cycModel cycA []).2⟩

/-- Helper: everything the worklist collects is reachable from the seed
consumers without entering a stop node. -/
theorem gcsnAux_sound (m : OModel) (stop : List Node) (seed : String) :
    ∀ (fuel : Nat) (visited q l : List Node),
      gcsnAux m stop fuel visited q = some l →
      (∀ v ∈ visited, ReachC m seed stop v ∧ ¬ v ∈ stop) →
      (∀ v ∈ q, ¬ v ∈ stop → ReachC m seed stop v) →
      ∀ v ∈ l, ReachC m seed stop v ∧ ¬ v ∈ stop := by
  intro fuel
  induction fuel with
  | zero => intro visited q l h; exact absurd h (by simp [gcsnAux])
  | succ f ih =>
    intro visited q l h hvis hq
    cases q with
    | nil =>
      have hl : visited = l := by
        have h2 : some visited = some l := h
        injection h2
      exact hl ▸ hvis
    | cons c rest =>
      have h2 : (if c ∈ stop then gcsnAux m stop f visited rest
          else if c ∈ visited then gcsnAux m stop f visited rest
          else gcsnAux m stop f (visited ++ [c]) (rest ++ get_children m c)) = some l := h
      by_cases hstop : c ∈ stop
      · rw [if_pos hstop] at h2
        exact ih visited rest l h2 hvis (fun v hv => hq v (List.mem_cons_of_mem c hv))
      · by_cases hv : c ∈ visited
        · rw [if_neg hstop, if_pos hv] at h2
          exact ih visited rest l h2 hvis (fun v hv2 => hq v (List.mem_cons_of_mem c hv2))
        · rw [if_neg hstop, if_neg hv] at h2
          have hrc : ReachC m seed stop c := hq c (List.mem_cons_self c rest) hstop
          refine ih (visited ++ [c]) (rest ++ get_children m c) l h2 ?_ ?_
          · intro v hv2
            rcases List.mem_append.mp hv2 with h3 | h3
            · exact hvis v h3
            · rw [List.mem_singleton] at h3
              subst h3
              exact ⟨hrc, hstop⟩
          · intro v hv2 hvs
            rcases List.mem_append.mp hv2 with h3 | h3
            · exact hq v (List.mem_cons_of_mem c h3) hvs
            · exact ReachC.stepR c v hrc h3 hvs

/-- Helper: a finished worklist run covers its seeds and is closed under
non-stop children. -/
theorem gcsnAux_closed (m : OModel) (stop : List Node) :
    ∀ (fuel : Nat) (visited q l : List Node),
      gcsnAux m stop fuel visited q = some l →
      (∀ v ∈ visited, v ∈ l)
      ∧ (∀ v ∈ q, v ∈ stop ∨ v ∈ l)
      ∧ (∀ v ∈ l, ¬ v ∈ visited → ∀ w ∈ get_children m v, w ∈ stop ∨ w ∈ l) := by
  intro fuel
  induction fuel with
  | zero => intro visited q l h; exact absurd h (by simp [gcsnAux])
  | succ f ih =>
    intro visited q l h
    cases q with
    | nil =>
      have hl : visited = l := by
        have h2 : some visited = some l := h
        injection h2
      subst hl
      exact ⟨fun v hv => hv, fun v hv => absurd hv (List.not_mem_nil v),
        fun v hv hnv => absurd hv hnv⟩
    | cons c rest =>
      have h2 : (if c ∈ stop then gcsnAux m stop f visited rest
          else if c ∈ visited then gcsnAux m stop f visited rest
          else gcsnAux m stop f (visited ++ [c]) (rest ++ get_children m c)) = some l := h
      by_cases hstop : c ∈ stop
      · rw [if_pos hstop] at h2
        obtain ⟨h3, h4, h5⟩ := ih visited rest l h2
        refine ⟨h3, ?_, h5⟩
        intro v hv
        rcases List.mem_cons.mp hv with h6 | h6
        · exact Or.inl (h6 ▸ hstop)
        · exact h4 v h6
      · by_cases hv : c ∈ visited
        · rw [if_neg hstop, if_pos hv] at h2
          obtain ⟨h3, h4, h5⟩ := ih visited rest l h2
          refine ⟨h3, ?_, h5⟩
          intro v hv2
          rcases List.mem_cons.mp hv2 with h6 | h6
          · exact Or.inr (h6 ▸ h3 c hv)
          · exact h4 v h6
        · rw [if_neg hstop, if_neg hv] at h2
          obtain ⟨h3, h4, h5⟩ := ih (visited ++ [c]) (rest ++ get_children m c) l h2
          have hcl : c ∈ l := h3 c (List.mem_append.mpr (Or.inr (List.mem_singleton.mpr rfl)))
          refine ⟨fun v hv2 => h3 v (List.mem_append.mpr (Or.inl hv2)), ?_, ?_⟩
          · intro v hv2
            rcases List.mem_cons.mp hv2 with h6 | h6
            · exact Or.inr (h6 ▸ hcl)
            · exact h4 v (List.mem_append.mpr (Or.inl h6))
          · intro v hv2 hnv
            by_cases hvc : v = c
            · subst hvc
              intro w hw
              exact h4 w (List.mem_append.mpr (Or.inr hw))
            · refine h5 v hv2 ?_
              intro hmem
              rcases List.mem_append.mp hmem with h6 | h6
              · exact hnv h6
              · exact hvc (List.mem_singleton.mp h6)

/-- C10: the downstream collection is partial exactly at its entry.  For
a root with at least one output, the call fails (the unguarded consumer
lookup raises) exactly when the first output has no consumer; when a
consumer exists the call succeeds and returns precisely the set of nodes
reachable from the first output's consumers avoiding the stop set; and
the traversal is seeded from the first output alone — any root with the
same first output gets the identical result. -/
theorem get_children_subgraph_nodes_partial (m : OModel) (root : Node)
    (stop : List Node) (x : String) (rest : List String)
    (hout : root.output = x :: rest) :
    (inputNameToNodes m x = [] ↔ get_children_subgraph_nodes m root stop = none)
    ∧ (¬ inputNameToNodes m x = [] →
        ∃ l, get_children_subgraph_nodes m root stop = some (some l)
          ∧ ∀ v, v ∈ l ↔ ReachC m x stop v)
    ∧ ∀ root2 : Node, root2.output.head? = some x →
        get_children_subgraph_nodes m root2 stop = get_children_subgraph_nodes m root stop := by
  have hred : get_children_subgraph_nodes m root stop =
      (if inputNameToNodes m x = [] then none
        else some (gcsnAux m stop (gcsnFuel m (inputNameToNodes m x).reverse) []
          (inputNameToNodes m x).reverse)) := by
    unfold get_children_subgraph_nodes
    rw [hout]
  have hmain : ¬ inputNameToNodes m x = [] →
      ∃ l, get_children_subgraph_nodes m root stop = some (some l)
        ∧ ∀ v, v ∈ l ↔ ReachC m x stop v := by
    intro hcs
    obtain ⟨l, hl⟩ := gcsnAux_some m stop (gcsnFuel m (inputNameToNodes m x).reverse)
      [] (inputNameToNodes m x).reverse
      (fun c hc => mem_inputNameToNodes m x c (List.mem_reverse.mp hc))
      (by
        unfold gcsnFuel
        have hcount : m.nodes.countP (fun v => decide (¬ v ∈ ([] : List Node))) ≤ m.nodes.length :=
          List.countP_le_length _
        have hmul := Nat.mul_le_mul_right (maxChildCount m + 1) hcount
        omega)
    refine ⟨l, by rw [hred, if_neg hcs, hl], ?_⟩
    intro v
    constructor
    · intro hvl
      exact (gcsnAux_sound m stop x _ [] _ l hl (by simp)
        (fun w hw hws => ReachC.seedR w (List.mem_reverse.mp hw) hws) v hvl).1
    · intro hr
      obtain ⟨hvis, hq, hclosed⟩ := gcsnAux_closed m stop _ [] _ l hl
      induction hr with
      | seedR w hw hws =>
        rcases hq w (List.mem_reverse.mpr hw) with h1 | h1
        · exact absurd h1 hws
        · exact h1
      | stepR u w hu hw hws ihm =>
        rcases hclosed u ihm (by simp) w hw with h1 | h1
        · exact absurd h1 hws
        · exact h1
  refine ⟨⟨?_, ?_⟩, hmain, ?_⟩
  · intro hcs
    rw [hred, if_pos hcs]
  · intro hnone
    by_cases hcs : inputNameToNodes m x = []
    · exact hcs
    · obtain ⟨l, hl, -⟩ := hmain hcs
      rw [hl] at hnone
      exact absurd hnone (by simp)
  · intro root2 hh
    obtain ⟨rest2, hout2⟩ : ∃ r2, root2.output = x :: r2 := by
      cases ho2 : root2.output with
      | nil => rw [ho2] at hh; exact absurd hh (by simp)
      | cons y t =>
        rw [ho2] at hh
        simp only [List.head?_cons, Option.some.injEq] at hh
        exact ⟨t, by rw [hh]⟩
    rw [hred]
    unfold get_children_subgraph_nodes
    rw [hout2]

/-- Witness for C10 on the cyclic session, whose root's first output has
a consumer. -/
theorem get_children_subgraph_nodes_partial_witness :
    (inputNameToNodes cycModel "a" = [] ↔
      get_children_subgraph_nodes cycModel cycA [] = none)
    ∧ (¬ inputNameToNodes cycModel "a" = [] →
        ∃ l, get_children_subgraph_nodes cycModel cycA [] = some (some l)
          ∧ ∀ v, v ∈ l ↔ ReachC cycModel "a" [] v)
    ∧ ∀ root2 : Node, root2.output.head? = some "a" →
        get_children_subgraph_nodes cycModel root2 [] =
          get_children_subgraph_nodes cycModel cycA [] :=
  get_children_subgraph_nodes_partial cycModel cycA [] "a" [] rfl

/-- C4 (amended): the mutation operations are silent no-ops on absent
targets — removing a node held by no discovered graph and rewriting an
absent input or output name leave the state untouched — and they complete
without raising except that `add_node`, `add_initializer` and `add_input`
raise (dereference a null graph) exactly when the target graph name
matches no discovered graph. -/
theorem mutation_noop_and_raise (m : OModel) (nd ndX : Node) (t : Tensor)
    (v : VInfo) (old_name new_name : String) :
    ((∀ g ∈ m.graphs, ¬ nd ∈ g.node) → remove_node m nd = m)
    ∧ (¬ old_name ∈ ndX.input → replace_node_input ndX old_name new_name = ndX)
    ∧ (¬ old_name ∈ ndX.output → replace_node_output ndX old_name new_name = ndX)
    ∧ (add_node m nd none).isSome = true
    ∧ (add_node m nd (some m.primary.name)).isSome = true
    ∧ (∀ gn, (get_graph_by_name m gn).isSome = true →
        (add_node m nd (some gn)).isSome = true
        ∧ (add_initializer m t (some gn)).isSome = true
        ∧ (add_input m v (some gn)).isSome = true)
    ∧ (∀ gn, ¬ gn = m.primary.name → get_graph_by_name m gn = none →
        add_node m nd (some gn) = none
        ∧ add_initializer m t (some gn) = none
        ∧ add_input m v (some gn) = none) := by
  refine ⟨?_, ?_, ?_, ?_, ?_, ?_, ?_⟩
  · intro h
    unfold remove_node
    rw [List.erase_of_not_mem (h m.primary (List.mem_cons_self _ _)),
      map_id_of_fixed _ _ (fun g hg => by
        rw [List.erase_of_not_mem (h g (List.mem_cons_of_mem _ hg))])]
  · intro h
    unfold replace_node_input
    rw [map_id_of_fixed _ _ (fun i hi => if_neg (by rintro rfl; exact h hi))]
  · intro h
    unfold replace_node_output
    rw [map_id_of_fixed _ _ (fun o ho => if_neg (by rintro rfl; exact h ho))]
  · rfl
  · simp [add_node]
  · intro gn hsome
    by_cases hp : gn = m.primary.name
    · subst hp
      exact ⟨by simp [add_node], by simp [add_initializer], by simp [add_input]⟩
    · obtain ⟨g, hg⟩ := Option.isSome_iff_exists.mp hsome
      have hsub : m.subgraphs.find? (fun g => g.name = gn) = some g := by
        unfold get_graph_by_name OModel.graphs at hg
        rwa [List.find?_cons_of_neg _ (by simp; exact fun he => hp he.symm)] at hg
      refine ⟨?_, ?_, ?_⟩
      · simp only [add_node, if_neg hp]
        rw [Option.isSome_map']
        exact updateFirstSub_isSome _ _ _ (by rw [hsub]; rfl)
      · simp only [add_initializer, if_neg hp]
        rw [Option.isSome_map']
        exact updateFirstSub_isSome _ _ _ (by rw [hsub]; rfl)
      · simp only [add_input, if_neg hp]
        rw [Option.isSome_map']
        exact updateFirstSub_isSome _ _ _ (by rw [hsub]; rfl)
  · intro gn hp hnone
    have hsub : m.subgraphs.find? (fun g => g.name = gn) = none := by
      unfold get_graph_by_name OModel.graphs at hnone
      rwa [List.find?_cons_of_neg _ (by simp; exact fun he => hp he.symm)] at hnone
    refine ⟨?_, ?_, ?_⟩
    · simp only [add_node, if_neg hp, updateFirstSub_none _ _ _ hsub, Option.map_none']
    · simp only [add_initializer, if_neg hp, updateFirstSub_none _ _ _ hsub, Option.map_none']
    · simp only [add_input, if_neg hp, updateFirstSub_none _ _ _ hsub, Option.map_none']

/-- Witness for C4 on a concrete session with a named subgraph. -/
theorem mutation_noop_and_raise_witness :
    remove_node exSubModel exWProducer = exSubModel
    ∧ (add_node exSubModel exWProducer (some "sub")).isSome = true := by
  have h := mutation_noop_and_raise exSubModel exWProducer exWProducer
    ⟨"t", []⟩ ⟨"vi"⟩ "zz" "yy"
  exact ⟨h.1 (by decide), (h.2.2.2.2.2.1 "sub" (by decide)).1⟩

/-- C4 counterexample: `add_node` with a graph name matching no
discovered graph raises (the embedded `none`) instead of completing. -/
theorem add_node_unknown_graph_counterexample :
    get_graph_by_name exChainModel "nope" = none
    ∧ add_node exChainModel exP (some "nope") = none := by
  decide

/-! C2: topological sort.  The proofs rest on a closed form of one
decrement run (`applyName`): counts drop by the registration
multiplicity, and exactly the positions whose count lands on zero during
the run are emitted, appended in position order. -/

/-- Helper: a constant-valued map is a replicate. -/
theorem map_const_eq_replicate {α β : Type} (l : List α) (b : β) :
    l.map (fun _ => b) = List.replicate l.length b := by
  induction l with
  | nil => rfl
  | cons a t ih => simp [ih, List.replicate_succ]

/-- Helper: congruence for flatMap. -/
theorem flatMap_congr_fun {α β : Type} (f g : α → List β) :
    ∀ l : List α, (∀ a ∈ l, f a = g a) → l.flatMap f = l.flatMap g := by
  intro l
  induction l with
  | nil => intro _; rfl
  | cons a t ih =>
    intro h
    rw [List.flatMap_cons, List.flatMap_cons, h a (List.mem_cons_self a t),
      ih (fun b hb => h b (List.mem_cons_of_mem a hb))]

/-- Helper: the consumer registration of one name is one block per
position, the block size being the registration multiplicity. -/
theorem consumersOf_eq_blocks (N : List Node) (x : String) :
    consumersOf N x = (List.range N.length).flatMap
      (fun i => List.replicate (multG N x i) i) := by
  unfold consumersOf
  apply flatMap_congr_fun
  intro i _
  unfold multG
  by_cases h : 0 < depsCount0 N i
  · rw [if_pos h, if_pos h, map_const_eq_replicate]
  · rw [if_neg h, if_neg h, List.replicate_zero]

/-- Helper: a same-position decrement block subtracts its size from the
position's count, emitting the position exactly when the count crosses
zero inside the block. -/
theorem foldl_decOne_replicate :
    ∀ (k : Nat) (st : SortSt) (j : Nat),
      (List.replicate k j).foldl decOne st =
        { counts := fun i => if i = j then st.counts j - k else st.counts i,
          sorted := if 1 ≤ st.counts j ∧ st.counts j ≤ (k : Int) then st.sorted ++ [j]
            else st.sorted } := by
  intro k
  induction k with
  | zero =>
    intro st j
    show st = _
    refine SortSt.ext ?_ ?_
    · funext i
      dsimp only
      by_cases h : i = j
      · subst h; simp
      · rw [if_neg h]
    · dsimp only
      rw [if_neg (by omega)]
  | succ k2 ih =>
    intro st j
    rw [List.replicate_succ, List.foldl_cons, ih]
    have hc : (decOne st j).counts j = st.counts j - 1 := by simp [decOne]
    have hcne : ∀ i, ¬ i = j → (decOne st j).counts i = st.counts i := by
      intro i h
      simp [decOne, h]
    have hs : (decOne st j).sorted =
        if st.counts j - 1 = 0 then st.sorted ++ [j] else st.sorted := by
      simp [decOne]
    refine SortSt.ext ?_ ?_
    · funext i
      dsimp only
      by_cases h : i = j
      · subst h
        rw [if_pos rfl, if_pos rfl, hc]
        push_cast
        ring
      · rw [if_neg h, if_neg h, hcne i h]
    · dsimp only
      rw [hc, hs]
      split_ifs <;> first | rfl | (exfalso; omega)

/-- Helper: a run of distinct-position blocks subtracts pointwise and
appends, in order, the positions whose count crosses zero. -/
theorem foldl_decOne_blocks :
    ∀ (D : List Nat), D.Nodup → ∀ (mlt : Nat → Nat) (st : SortSt),
      (D.flatMap (fun i => List.replicate (mlt i) i)).foldl decOne st =
        { counts := fun i => if i ∈ D then st.counts i - mlt i else st.counts i,
          sorted := st.sorted ++
            D.filter (fun i => decide (1 ≤ st.counts i ∧ st.counts i ≤ (mlt i : Int))) } := by
  intro D
  induction D with
  | nil =>
    intro _ mlt st
    show st = _
    refine SortSt.ext ?_ ?_
    · funext i
      dsimp only
      rw [if_neg (List.not_mem_nil i)]
    · simp
  | cons i0 D' ih =>
    intro hD mlt st
    obtain ⟨hni, hnd⟩ := List.nodup_cons.mp hD
    rw [List.flatMap_cons, List.foldl_append, foldl_decOne_replicate, ih hnd]
    refine SortSt.ext ?_ ?_
    · funext i
      dsimp only
      by_cases hmem : i ∈ D'
      · have hne : ¬ i = i0 := fun he => hni (he ▸ hmem)
        rw [if_pos hmem, if_pos (List.mem_cons_of_mem _ hmem)]
        show (if i = i0 then st.counts i0 - mlt i0 else st.counts i) - mlt i = _
        rw [if_neg hne]
      · by_cases hi0 : i = i0
        · subst hi0
          rw [if_neg hmem, if_pos (List.mem_cons_self _ _)]
          show (if i = i then st.counts i - mlt i else st.counts i) = _
          rw [if_pos rfl]
        · have hnotmem : ¬ i ∈ i0 :: D' := by
            intro hmm
            rcases List.mem_cons.mp hmm with h1 | h2
            · exact hi0 h1
            · exact hmem h2
          rw [if_neg hmem, if_neg hnotmem]
          show (if i = i0 then st.counts i0 - (mlt i0 : Int) else st.counts i) = st.counts i
          rw [if_neg hi0]
    · dsimp only
      have hfilter : D'.filter (fun i => decide
          (1 ≤ (if i = i0 then st.counts i0 - mlt i0 else st.counts i)
            ∧ (if i = i0 then st.counts i0 - mlt i0 else st.counts i) ≤ (mlt i : Int))) =
          D'.filter (fun i => decide (1 ≤ st.counts i ∧ st.counts i ≤ (mlt i : Int))) := by
        apply List.filter_congr
        intro i hmem
        have hne : ¬ i = i0 := fun he => hni (he ▸ hmem)
        rw [if_neg hne]
      rw [hfilter, List.filter_cons]
      by_cases hcond : 1 ≤ st.counts i0 ∧ st.counts i0 ≤ (mlt i0 : Int)
      · rw [if_pos hcond, if_pos (by simpa using hcond), List.append_assoc]
        rfl
      · rw [if_neg hcond, if_neg (by simpa using hcond)]

/-- Closed form of one decrement run: every count drops by the name's
registration multiplicity at that position, and the positions whose
count crosses zero are appended in position order. -/
theorem applyName_eq (N : List Node) (st : SortSt) (x : String) :
    applyName N st x =
      { counts := fun i => st.counts i - multG N x i,
        sorted := st.sorted ++ (List.range N.length).filter
          (fun i => decide (1 ≤ st.counts i ∧ st.counts i ≤ (multG N x i : Int))) } := by
  unfold applyName
  rw [consumersOf_eq_blocks, foldl_decOne_blocks (List.range N.length) (List.nodup_range N.length)]
  refine SortSt.ext ?_ ?_
  · funext i
    dsimp only
    by_cases hmem : i ∈ List.range N.length
    · rw [if_pos hmem]
    · rw [if_neg hmem]
      have hout : multG N x i = 0 := by
        unfold multG depsCount0 nodeAt
        rw [List.getD_eq_default]
        · simp [defaultNode]
        · simpa using fun hlt => hmem (List.mem_range.mpr hlt)
      rw [hout]
      push_cast
      ring
  · rfl

/-- Helper: one decrement run only appends to the emitted list. -/
theorem applyName_sorted_pfx (N : List Node) (st : SortSt) (x : String) :
    st.sorted <+: (applyName N st x).sorted := by
  rw [applyName_eq]
  exact List.prefix_append _ _

/-- Helper: a run over several names only appends to the emitted list. -/
theorem foldl_applyName_pfx (N : List Node) :
    ∀ (xs : List String) (st : SortSt),
      st.sorted <+: (xs.foldl (applyName N) st).sorted := by
  intro xs
  induction xs with
  | nil => intro st; exact List.prefix_refl _
  | cons x rest ih =>
    intro st
    exact (applyName_sorted_pfx N st x).trans (ih (applyName N st x))

/-- Helper: the drain only appends to the emitted list. -/
theorem drain_sorted_pfx (N : List Node) :
    ∀ (fuel : Nat) (st : SortSt) (start : Nat),
      st.sorted <+: (drain N fuel st start).sorted := by
  intro fuel
  induction fuel with
  | zero => intro st start; exact List.prefix_refl _
  | succ f ih =>
    intro st start
    by_cases h : start < st.sorted.length
    · have heq : drain N (f + 1) st start =
          drain N f ((nodeAt N (st.sorted.get ⟨start, h⟩)).output.foldl (applyName N) st)
            (start + 1) := by
        show (if h2 : start < st.sorted.length then
          drain N f ((nodeAt N (st.sorted.get ⟨start, h2⟩)).output.foldl (applyName N) st)
            (start + 1) else st) = _
        rw [dif_pos h]
      rw [heq]
      exact (foldl_applyName_pfx N _ st).trans (ih _ _)
    · have heq : drain N (f + 1) st start = st := by
        show (if h2 : start < st.sorted.length then
          drain N f ((nodeAt N (st.sorted.get ⟨start, h2⟩)).output.foldl (applyName N) st)
            (start + 1) else st) = _
        rw [dif_neg h]
      rw [heq]

/-- Helper: one decrement run preserves the structural invariant. -/
theorem applyName_StInv (N : List Node) (st : SortSt) (x : String)
    (h : StInv N.length st) : StInv N.length (applyName N st x) := by
  obtain ⟨hnd, hmem⟩ := h
  rw [applyName_eq]
  constructor
  · dsimp only
    rw [List.nodup_append]
    refine ⟨hnd, (List.nodup_range N.length).filter _, ?_⟩
    intro i hi hi2
    have h1 := (hmem i hi).2
    have h2 := (List.of_mem_filter hi2)
    simp only [decide_eq_true_eq] at h2
    omega
  · intro i hi
    dsimp only at hi ⊢
    rcases List.mem_append.mp hi with h1 | h1
    · obtain ⟨hlt, hle⟩ := hmem i h1
      refine ⟨hlt, by omega⟩
    · have h2 := List.of_mem_filter h1
      simp only [decide_eq_true_eq] at h2
      have h3 : i < N.length := List.mem_range.mp (List.mem_of_mem_filter h1)
      refine ⟨h3, by omega⟩

/-- Helper: a run over several names preserves the structural
invariant. -/
theorem foldl_applyName_StInv (N : List Node) :
    ∀ (xs : List String) (st : SortSt), StInv N.length st →
      StInv N.length (xs.foldl (applyName N) st) := by
  intro xs
  induction xs with
  | nil => intro st h; exact h
  | cons x rest ih => intro st h; exact ih _ (applyName_StInv N st x h)

/-- Helper: the drain preserves the structural invariant. -/
theorem drain_StInv (N : List Node) :
    ∀ (fuel : Nat) (st : SortSt) (start : Nat), StInv N.length st →
      StInv N.length (drain N fuel st start) := by
  intro fuel
  induction fuel with
  | zero => intro st start h; exact h
  | succ f ih =>
    intro st start h
    by_cases hlt : start < st.sorted.length
    · have heq : drain N (f + 1) st start =
          drain N f ((nodeAt N (st.sorted.get ⟨start, hlt⟩)).output.foldl (applyName N) st)
            (start + 1) := by
        show (if h2 : start < st.sorted.length then
          drain N f ((nodeAt N (st.sorted.get ⟨start, h2⟩)).output.foldl (applyName N) st)
            (start + 1) else st) = _
        rw [dif_pos hlt]
      rw [heq]
      exact ih _ _ (foldl_applyName_StInv N _ st h)
    · have heq : drain N (f + 1) st start = st := by
        show (if h2 : start < st.sorted.length then
          drain N f ((nodeAt N (st.sorted.get ⟨start, h2⟩)).output.foldl (applyName N) st)
            (start + 1) else st) = _
        rw [dif_neg hlt]
      rw [heq]
      exact h

/-- Helper: the start state satisfies the structural invariant. -/
theorem initialSt_StInv (N : List Node) : StInv N.length (initialSt N) := by
  constructor
  · exact (List.nodup_range N.length).filter _
  · intro i hi
    refine ⟨List.mem_range.mp (List.mem_of_mem_filter hi), ?_⟩
    have h2 := List.of_mem_filter hi
    simp only [decide_eq_true_eq] at h2
    show ((depsCount0 N i : Nat) : Int) ≤ 0
    omega

/-- Helper: a state satisfying the invariant emits at most one entry per
position. -/
theorem StInv_length_le (n : Nat) (st : SortSt) (h : StInv n st) :
    st.sorted.length ≤ n := by
  obtain ⟨hnd, hmem⟩ := h
  have hsub : st.sorted ⊆ List.range n := fun i hi => List.mem_range.mpr (hmem i hi).1
  have := (List.subperm_of_subset hnd hsub).length_le
  simpa using this

/-- Helper: processing one more unprocessed name splits the unprocessed
occurrences into the occurrences of that name and the rest. -/
theorem filter_hit_split (x : String) (hitL : List String) (hx : ¬ x ∈ hitL) :
    ∀ l : List String,
      (l.filter (fun y => decide (¬ y ∈ x :: hitL))).length
        + (l.filter (fun y => decide (y = x))).length
      = (l.filter (fun y => decide (¬ y ∈ hitL))).length := by
  intro l
  induction l with
  | nil => rfl
  | cons y rest ih =>
    rw [List.filter_cons, List.filter_cons, List.filter_cons]
    by_cases hyx : y = x
    · subst hyx
      rw [if_neg (by simp), if_pos (by simp), if_pos (by simpa using hx)]
      simp only [List.length_cons]
      omega
    · by_cases hyh : y ∈ hitL
      · rw [if_neg (by simp [hyh]), if_neg (by simp [hyx]), if_neg (by simpa using hyh)]
        exact ih
      · rw [if_pos (by simp [hyx, hyh]), if_neg (by simp [hyx]), if_pos (by simpa using hyh)]
        simp only [List.length_cons]
        omega

/-- Helper: in-range positions are real nodes. -/
theorem nodeAt_mem (N : List Node) (i : Nat) (h : i < N.length) : nodeAt N i ∈ N := by
  unfold nodeAt
  rw [List.getD_eq_getElem?_getD, List.getElem?_eq_getElem h]
  exact List.getElem_mem _

/-- Helper: without empty-string inputs the registration multiplicity is
the plain occurrence count. -/
theorem multG_eq_count (N : List Node) (H1 : NoEmptyInputs N) (x : String) (i : Nat) :
    multG N x i = ((nodeAt N i).input.filter (fun s => decide (s = x))).length := by
  unfold multG
  by_cases h : 0 < depsCount0 N i
  · rw [if_pos h]
  · rw [if_neg h]
    by_cases hin : i < N.length
    · have hempty : (nodeAt N i).input = [] := by
        unfold depsCount0 at h
        rcases hl : (nodeAt N i).input with _ | ⟨y, ys⟩
        · rfl
        · exfalso
          have hyin : y ∈ (nodeAt N i).input := by rw [hl]; exact List.mem_cons_self y ys
          have hye : y = "" := by
            by_contra hne
            have : y ∈ (nodeAt N i).input.filter (fun s => decide (¬ s = "")) :=
              List.mem_filter.mpr ⟨hyin, by simpa using hne⟩
            have hpos : 0 < ((nodeAt N i).input.filter (fun s => decide (¬ s = ""))).length :=
              List.length_pos.mpr (List.ne_nil_of_mem this)
            omega
          exact H1 (nodeAt N i) (nodeAt_mem N i hin) (hye ▸ hyin)
      rw [hempty]
      rfl
    · have : nodeAt N i = defaultNode := by
        unfold nodeAt
        exact List.getD_eq_default _ _ (by omega)
      rw [this]
      rfl

/-- Helper: the unprocessed-occurrence formula only reads membership in
the processed list. -/
theorem hitF_congr (N : List Node) (L1 L2 : List String)
    (h : ∀ y, y ∈ L1 ↔ y ∈ L2) (i : Nat) : hitF N L1 i = hitF N L2 i := by
  unfold hitF
  rw [List.filter_congr (fun y _ => decide_eq_decide.mpr (not_congr (h y)))]

/-- Helper: one decrement run updates the count formula by marking the
processed name. -/
theorem applyName_CInv (N : List Node) (st : SortSt) (hitL : List String) (x : String)
    (H1 : NoEmptyInputs N) (hx : ¬ x ∈ hitL) (hC : CInv N hitL st) :
    CInv N (x :: hitL) (applyName N st x) := by
  intro i
  rw [applyName_eq]
  show st.counts i - multG N x i = _
  rw [hC i, multG_eq_count N H1 x i]
  unfold hitF
  have := filter_hit_split x hitL hx (nodeAt N i).input
  omega

/-- Helper: a zero count under the formula means every input occurrence
was processed. -/
theorem hitF_zero_all_hit (N : List Node) (hitL : List String) (i : Nat)
    (h : hitF N hitL i = 0) : ∀ y ∈ (nodeAt N i).input, y ∈ hitL := by
  intro y hy
  unfold hitF at h
  have hlen : ((nodeAt N i).input.filter (fun y => decide (¬ y ∈ hitL))).length = 0 := by omega
  have hnil := List.length_eq_zero.mp hlen
  by_contra hyh
  have : y ∈ (nodeAt N i).input.filter (fun y => decide (¬ y ∈ hitL)) :=
    List.mem_filter.mpr ⟨hy, by simpa using hyh⟩
  rw [hnil] at this
  exact List.not_mem_nil y this

/-- Helper: the count formula dominates the occurrence count of any
unprocessed name. -/
theorem hitF_ge_count (N : List Node) (hitL : List String) (x : String)
    (hx : ¬ x ∈ hitL) (i : Nat) :
    ((((nodeAt N i).input.filter (fun s => decide (s = x))).length : Int)) ≤ hitF N hitL i := by
  have := filter_hit_split x hitL hx (nodeAt N i).input
  unfold hitF
  omega

/-- Helper: in a duplicate-free flattened family, one element cannot lie
in the blocks of two distinct positions. -/
theorem nodup_flatMap_index {α β : Type} (f : α → List β) :
    ∀ (l : List α), (l.flatMap f).Nodup →
      ∀ (p q : Nat) (hp : p < l.length) (hq : q < l.length) (b : β),
        b ∈ f (l.get ⟨p, hp⟩) → b ∈ f (l.get ⟨q, hq⟩) → p = q := by
  intro l
  induction l with
  | nil => intro _ p q hp _ b; exact absurd hp (by simp)
  | cons a t ih =>
    intro hnd p q hp hq b hbp hbq
    rw [List.flatMap_cons] at hnd
    obtain ⟨h1, h2, hdisj⟩ := List.nodup_append.mp hnd
    cases p with
    | zero =>
      cases q with
      | zero => rfl
      | succ q2 =>
        have hq2 : q2 < t.length := by rw [List.length_cons] at hq; omega
        exact absurd (List.mem_flatMap.mpr ⟨t.get ⟨q2, hq2⟩, List.get_mem t q2 hq2, hbq⟩)
          (fun hmm => hdisj hbp hmm)
    | succ p2 =>
      cases q with
      | zero =>
        have hp2 : p2 < t.length := by rw [List.length_cons] at hp; omega
        exact absurd (List.mem_flatMap.mpr ⟨t.get ⟨p2, hp2⟩, List.get_mem t p2 hp2, hbp⟩)
          (fun hmm => hdisj hbq hmm)
      | succ q2 =>
        rw [ih h2 p2 q2 (by rw [List.length_cons] at hp; omega)
          (by rw [List.length_cons] at hq; omega) b hbp hbq]

/-- Helper: distinct positions have disjoint output names under the
single-assignment hypothesis. -/
theorem uniqueOutputs_disjoint (N : List Node) (H2a : UniqueOutputs N)
    (p q : Nat) (hp : p < N.length) (hq : q < N.length) (y : String)
    (hyp : y ∈ (nodeAt N p).output) (hyq : y ∈ (nodeAt N q).output) : p = q := by
  have hgp : nodeAt N p = N.get ⟨p, hp⟩ := by
    unfold nodeAt
    rw [List.getD_eq_getElem?_getD, List.getElem?_eq_getElem hp]
    rfl
  have hgq : nodeAt N q = N.get ⟨q, hq⟩ := by
    unfold nodeAt
    rw [List.getD_eq_getElem?_getD, List.getElem?_eq_getElem hq]
    rfl
  exact nodup_flatMap_index _ N H2a p q hp hq y (hgp ▸ hyp) (hgq ▸ hyq)

/-- Helper: each node's own outputs are duplicate-free under the
single-assignment hypothesis. -/
theorem uniqueOutputs_node_nodup (N : List Node) (H2a : UniqueOutputs N) :
    ∀ nd ∈ N, nd.output.Nodup := by
  intro nd hnd
  unfold UniqueOutputs at H2a
  induction N with
  | nil => exact absurd hnd (List.not_mem_nil nd)
  | cons a t ih =>
    rw [List.flatMap_cons] at H2a
    obtain ⟨h1, h2, -⟩ := List.nodup_append.mp H2a
    rcases List.mem_cons.mp hnd with h3 | h3
    · exact h3 ▸ h1
    · exact ih h2 h3

/-- Helper: positional lookups agree along a prefix. -/
theorem getD_of_pfx {l1 l2 : List Nat} (h : l1 <+: l2) (a : Nat) (ha : a < l1.length) :
    l2.getD a 0 = l1.getD a 0 := by
  obtain ⟨t, ht⟩ := h
  rw [← ht]
  exact List.getD_append _ _ _ _ ha

/-- Helper: an in-range positional lookup lands in the list. -/
theorem getD_mem_of_lt {l : List Nat} (a : Nat) (ha : a < l.length) : l.getD a 0 ∈ l := by
  rw [List.getD_eq_getElem?_getD, List.getElem?_eq_getElem ha]
  exact List.getElem_mem ha

/-- Helper: `get` and `getD` agree in range. -/
theorem get_eq_getD {α : Type} (l : List α) (d : α) (t : Nat) (ht : t < l.length) :
    l.get ⟨t, ht⟩ = l.getD t d := by
  rw [List.getD_eq_getElem?_getD, List.getElem?_eq_getElem ht]
  rfl

/-- Helper: positional lookups of a duplicate-free list are injective. -/
theorem nodup_getD_inj {l : List Nat} (h : l.Nodup) (a b : Nat)
    (ha : a < l.length) (hb : b < l.length) (he : l.getD a 0 = l.getD b 0) : a = b := by
  rw [← get_eq_getD l 0 a ha, ← get_eq_getD l 0 b hb] at he
  have h2 := (List.Nodup.get_inj_iff h).mp he
  simpa using h2

/-- Helper: membership gives an in-range position. -/
theorem mem_exists_getD {l : List Nat} {i : Nat} (h : i ∈ l) :
    ∃ t, t < l.length ∧ l.getD t 0 = i := by
  obtain ⟨⟨t, ht⟩, hget⟩ := List.mem_iff_get.mp h
  exact ⟨t, ht, by rw [← get_eq_getD l 0 t ht]; exact hget⟩

/-- Helper: one decrement run with a fresh, sourced name preserves the
counting, structural, ordering and provenance invariants. -/
theorem applyName_pack (N : List Node) (ini : List String) (st : SortSt)
    (hitL : List String) (s : Nat) (x : String)
    (H1 : NoEmptyInputs N) (H2a : UniqueOutputs N) (H2b : OutputsNotInit N ini)
    (hx : ¬ x ∈ hitL)
    (hxsrc : x ∈ ini ∨ ∃ a, a < s ∧ x ∈ (nodeAt N (st.sorted.getD a 0)).output)
    (hs : s ≤ st.sorted.length)
    (hC : CInv N hitL st) (hS : StInv N.length st) (hO : OrdInv N st)
    (hH : HitSrc ini N st s hitL) :
    CInv N (x :: hitL) (applyName N st x) ∧ StInv N.length (applyName N st x)
    ∧ OrdInv N (applyName N st x) ∧ HitSrc ini N (applyName N st x) s (x :: hitL)
    ∧ s ≤ (applyName N st x).sorted.length := by
  have hstab : ∀ a, a < st.sorted.length →
      (applyName N st x).sorted.getD a 0 = st.sorted.getD a 0 :=
    fun a ha => getD_of_pfx (applyName_sorted_pfx N st x) a ha
  obtain ⟨A, hsorted, hAmem⟩ : ∃ A, (applyName N st x).sorted = st.sorted ++ A ∧
      ∀ i ∈ A, i < N.length ∧ 1 ≤ st.counts i ∧ st.counts i ≤ (multG N x i : Int) := by
    refine ⟨_, by rw [applyName_eq], ?_⟩
    intro i hi
    have h1 := List.mem_range.mp (List.mem_of_mem_filter hi)
    have h2 := List.of_mem_filter hi
    simp only [decide_eq_true_eq] at h2
    exact ⟨h1, h2.1, h2.2⟩
  refine ⟨applyName_CInv N st hitL x H1 hx hC, applyName_StInv N st x hS, ?_, ?_, ?_⟩
  · intro b hb y hy p hp hyp
    by_cases hbold : b < st.sorted.length
    · rw [hstab b hbold] at hy
      obtain ⟨a, hab, hap⟩ := hO b hbold y hy p hp hyp
      exact ⟨a, hab, by rw [hstab a (lt_trans hab hbold)]; exact hap⟩
    · push_neg at hbold
      rw [hsorted, List.length_append] at hb
      have hb2 : b - st.sorted.length < A.length := by omega
      have hgetb : (applyName N st x).sorted.getD b 0 = A.getD (b - st.sorted.length) 0 := by
        rw [hsorted]
        exact List.getD_append_right _ _ _ _ hbold
      have hiA : A.getD (b - st.sorted.length) 0 ∈ A := getD_mem_of_lt _ hb2
      obtain ⟨hiN, hc1, hc2⟩ := hAmem _ hiA
      obtain ⟨i, hie⟩ : ∃ i, A.getD (b - st.sorted.length) 0 = i := ⟨_, rfl⟩
      rw [hie] at hgetb hiA hiN hc1 hc2
      rw [hgetb] at hy
      have hci := hC i
      have hge := hitF_ge_count N hitL x hx i
      have hmc : multG N x i = ((nodeAt N i).input.filter (fun s => decide (s = x))).length :=
        multG_eq_count N H1 x i
      have hsplit := filter_hit_split x hitL hx (nodeAt N i).input
      have hfz : hitF N (x :: hitL) i = 0 := by
        unfold hitF at hci hge ⊢
        rw [hmc] at hc2
        omega
      have hyx : y ∈ x :: hitL := hitF_zero_all_hit N (x :: hitL) i hfz y hy
      have hysrc : y ∈ ini ∨ ∃ a, a < s ∧ y ∈ (nodeAt N (st.sorted.getD a 0)).output := by
        rcases List.mem_cons.mp hyx with h | h
        · rw [h]; exact hxsrc
        · exact hH y h
      rcases hysrc with hini | ⟨a, has, hya⟩
      · exact absurd hini (H2b y (List.mem_flatMap.mpr ⟨nodeAt N p, nodeAt_mem N p hp, hyp⟩))
      · have haold : a < st.sorted.length := lt_of_lt_of_le has hs
        have hqN : st.sorted.getD a 0 < N.length :=
          (hS.2 _ (getD_mem_of_lt a haold)).1
        have hpq : p = st.sorted.getD a 0 :=
          uniqueOutputs_disjoint N H2a p _ hp hqN y hyp hya
        refine ⟨a, by omega, ?_⟩
        rw [hstab a haold, ← hpq]
  · intro y hy
    have hsrc : y ∈ ini ∨ ∃ a, a < s ∧ y ∈ (nodeAt N (st.sorted.getD a 0)).output := by
      rcases List.mem_cons.mp hy with h | h
      · rw [h]; exact hxsrc
      · exact hH y h
    rcases hsrc with h | ⟨a, ha, hya⟩
    · exact Or.inl h
    · exact Or.inr ⟨a, ha, by rw [hstab a (lt_of_lt_of_le ha hs)]; exact hya⟩
  · rw [hsorted, List.length_append]
    omega

/-- Helper: a run over fresh, duplicate-free, sourced names preserves the
invariant pack, marking every name processed. -/
theorem foldl_applyName_pack (N : List Node) (ini : List String)
    (H1 : NoEmptyInputs N) (H2a : UniqueOutputs N) (H2b : OutputsNotInit N ini) :
    ∀ (xs : List String) (st : SortSt) (hitL : List String) (s : Nat),
      (∀ x ∈ xs, ¬ x ∈ hitL) → xs.Nodup →
      (∀ x ∈ xs, x ∈ ini ∨ ∃ a, a < s ∧ x ∈ (nodeAt N (st.sorted.getD a 0)).output) →
      s ≤ st.sorted.length →
      CInv N hitL st → StInv N.length st → OrdInv N st → HitSrc ini N st s hitL →
      CInv N (xs.reverse ++ hitL) (xs.foldl (applyName N) st)
      ∧ StInv N.length (xs.foldl (applyName N) st)
      ∧ OrdInv N (xs.foldl (applyName N) st)
      ∧ HitSrc ini N (xs.foldl (applyName N) st) s (xs.reverse ++ hitL)
      ∧ s ≤ (xs.foldl (applyName N) st).sorted.length := by
  intro xs
  induction xs with
  | nil =>
    intro st hitL s hfresh hnd hsrc hs hC hS hO hH
    exact ⟨hC, hS, hO, hH, hs⟩
  | cons x rest ih =>
    intro st hitL s hfresh hnd hsrc hs hC hS hO hH
    have hx : ¬ x ∈ hitL := hfresh x (List.mem_cons_self x rest)
    obtain ⟨hC1, hS1, hO1, hH1, hs1⟩ :=
      applyName_pack N ini st hitL s x H1 H2a H2b hx
        (hsrc x (List.mem_cons_self x rest)) hs hC hS hO hH
    have hstab : ∀ a, a < st.sorted.length →
        (applyName N st x).sorted.getD a 0 = st.sorted.getD a 0 :=
      fun a ha => getD_of_pfx (applyName_sorted_pfx N st x) a ha
    have hndx : ¬ x ∈ rest := (List.nodup_cons.mp hnd).1
    have hrest := ih (applyName N st x) (x :: hitL) s
      (fun z hz => by
        intro hmem
        rcases List.mem_cons.mp hmem with h | h
        · exact hndx (h ▸ hz)
        · exact hfresh z (List.mem_cons_of_mem x hz) h)
      (List.nodup_cons.mp hnd).2
      (fun z hz => by
        rcases hsrc z (List.mem_cons_of_mem x hz) with h | ⟨a, ha, hza⟩
        · exact Or.inl h
        · exact Or.inr ⟨a, ha, by rw [hstab a (lt_of_lt_of_le ha hs)]; exact hza⟩)
      hs1 hC1 hS1 hO1 hH1
    simpa only [List.foldl_cons, List.reverse_cons, List.append_assoc,
      List.singleton_append] using hrest

/-- Helper: the queue drain preserves the structural and ordering
invariants, each drained position contributing its outputs as processed
names. -/
theorem drain_pack (N : List Node) (ini : List String)
    (H1 : NoEmptyInputs N) (H2a : UniqueOutputs N) (H2b : OutputsNotInit N ini) :
    ∀ (fuel : Nat) (st : SortSt) (s : Nat) (hitL : List String),
      CInv N hitL st → StInv N.length st → OrdInv N st → HitSrc ini N st s hitL →
      s ≤ st.sorted.length →
      StInv N.length (drain N fuel st s) ∧ OrdInv N (drain N fuel st s) := by
  intro fuel
  induction fuel with
  | zero => intro st s hitL hC hS hO hH hs; exact ⟨hS, hO⟩
  | succ f ih =>
    intro st s hitL hC hS hO hH hs
    by_cases hlt : s < st.sorted.length
    · have heq : drain N (f + 1) st s =
          drain N f ((nodeAt N (st.sorted.get ⟨s, hlt⟩)).output.foldl (applyName N) st)
            (s + 1) := by
        show (if h2 : s < st.sorted.length then
          drain N f ((nodeAt N (st.sorted.get ⟨s, h2⟩)).output.foldl (applyName N) st)
            (s + 1) else st) = _
        rw [dif_pos hlt]
      rw [heq]
      have hq : st.sorted.get ⟨s, hlt⟩ = st.sorted.getD s 0 := get_eq_getD _ _ s hlt
      have hqN : st.sorted.getD s 0 < N.length := (hS.2 _ (getD_mem_of_lt s hlt)).1
      have hfresh : ∀ y ∈ (nodeAt N (st.sorted.getD s 0)).output, ¬ y ∈ hitL := by
        intro y hy hmem
        rcases hH y hmem with hini | ⟨a, ha, hya⟩
        · exact H2b y (List.mem_flatMap.mpr
            ⟨nodeAt N (st.sorted.getD s 0), nodeAt_mem N _ hqN, hy⟩) hini
        · have haN : st.sorted.getD a 0 < N.length :=
            (hS.2 _ (getD_mem_of_lt a (lt_trans ha hlt))).1
          have hpe : st.sorted.getD a 0 = st.sorted.getD s 0 :=
            uniqueOutputs_disjoint N H2a _ _ haN hqN y hya hy
          have hae : a = s := nodup_getD_inj hS.1 a s (lt_trans ha hlt) hlt hpe
          omega
      have hnodup : (nodeAt N (st.sorted.getD s 0)).output.Nodup :=
        uniqueOutputs_node_nodup N H2a _ (nodeAt_mem N _ hqN)
      have hsrc : ∀ y ∈ (nodeAt N (st.sorted.getD s 0)).output,
          y ∈ ini ∨ ∃ a, a < s + 1 ∧ y ∈ (nodeAt N (st.sorted.getD a 0)).output :=
        fun y hy => Or.inr ⟨s, Nat.lt_succ_self s, hy⟩
      have hH1 : HitSrc ini N st (s + 1) hitL := by
        intro y hy
        rcases hH y hy with h | ⟨a, ha, hya⟩
        · exact Or.inl h
        · exact Or.inr ⟨a, by omega, hya⟩
      obtain ⟨hC2, hS2, hO2, hH2, hs2⟩ := foldl_applyName_pack N ini H1 H2a H2b
        (nodeAt N (st.sorted.getD s 0)).output st hitL (s + 1)
        hfresh hnodup hsrc hlt hC hS hO hH1
      rw [hq]
      exact ih _ (s + 1) _ hC2 hS2 hO2 hH2 hs2
    · have heq : drain N (f + 1) st s = st := by
        show (if h2 : s < st.sorted.length then
          drain N f ((nodeAt N (st.sorted.get ⟨s, h2⟩)).output.foldl (applyName N) st)
            (s + 1) else st) = _
        rw [dif_neg hlt]
      rw [heq]
      exact ⟨hS, hO⟩

/-- Helper: a dependency-free node has no inputs at all when empty-string
inputs are ruled out. -/
theorem depsCount0_zero_input_nil (N : List Node) (H1 : NoEmptyInputs N) (i : Nat)
    (hin : i < N.length) (h : depsCount0 N i = 0) : (nodeAt N i).input = [] := by
  rcases hl : (nodeAt N i).input with _ | ⟨y, ys⟩
  · rfl
  · exfalso
    have hyin : y ∈ (nodeAt N i).input := by rw [hl]; exact List.mem_cons_self y ys
    have hyne : ¬ y = "" := fun he => H1 (nodeAt N i) (nodeAt_mem N i hin) (he ▸ hyin)
    have hmem : y ∈ (nodeAt N i).input.filter (fun s => decide (¬ s = "")) :=
      List.mem_filter.mpr ⟨hyin, by simpa using hyne⟩
    have hpos : 0 < ((nodeAt N i).input.filter (fun s => decide (¬ s = ""))).length :=
      List.length_pos.mpr (List.ne_nil_of_mem hmem)
    unfold depsCount0 at h
    omega

/-- Helper: the start state satisfies the count formula with nothing
processed. -/
theorem initialSt_CInv (N : List Node) (H1 : NoEmptyInputs N) :
    CInv N [] (initialSt N) := by
  intro i
  show ((depsCount0 N i : Nat) : Int) = hitF N [] i
  have hlen : depsCount0 N i =
      ((nodeAt N i).input.filter (fun y => decide (¬ y ∈ ([] : List String)))).length := by
    unfold depsCount0
    by_cases hin : i < N.length
    · have e1 : (nodeAt N i).input.filter (fun s => decide (¬ s = "")) = (nodeAt N i).input :=
        List.filter_eq_self.mpr (fun y hy => by
          simp only [decide_eq_true_eq]
          exact fun he => H1 (nodeAt N i) (nodeAt_mem N i hin) (he ▸ hy))
      have e2 : (nodeAt N i).input.filter
          (fun y => decide (¬ y ∈ ([] : List String))) = (nodeAt N i).input :=
        List.filter_eq_self.mpr (fun y hy => by
          simp only [decide_eq_true_eq]
          exact List.not_mem_nil y)
      rw [e1, e2]
    · push_neg at hin
      have hd : nodeAt N i = defaultNode := by
        unfold nodeAt
        exact List.getD_eq_default _ _ hin
      rw [hd]
      rfl
  rw [hlen]
  rfl

/-- Helper: the start state trivially satisfies the ordering invariant
when empty-string inputs are ruled out. -/
theorem initialSt_OrdInv (N : List Node) (H1 : NoEmptyInputs N) :
    OrdInv N (initialSt N) := by
  intro b hb y hy p hp hyp
  exfalso
  have hmem : (initialSt N).sorted.getD b 0 ∈ (initialSt N).sorted := getD_mem_of_lt b hb
  have hmem2 : (initialSt N).sorted.getD b 0 ∈
      (List.range N.length).filter (fun i => decide (depsCount0 N i = 0)) := hmem
  have hin := List.mem_range.mp (List.mem_of_mem_filter hmem2)
  have hz := List.of_mem_filter hmem2
  simp only [decide_eq_true_eq] at hz
  have hnil : (nodeAt N ((initialSt N).sorted.getD b 0)).input = [] :=
    depsCount0_zero_input_nil N H1 _ hin hz
  rw [hnil] at hy
  exact List.not_mem_nil y hy

/-- Helper: the byte-wise comparison is total. -/
theorem charListLe_total : ∀ as bs : List Char,
    charListLe as bs = true ∨ charListLe bs as = true := by
  intro as
  induction as with
  | nil => intro bs; exact Or.inl rfl
  | cons a as ih =>
    intro bs
    cases bs with
    | nil => exact Or.inr rfl
    | cons b bs =>
      simp only [charListLe]
      by_cases h1 : a.toNat < b.toNat
      · left
        rw [if_pos h1]
      · by_cases h2 : b.toNat < a.toNat
        · right
          rw [if_pos h2]
        · rcases ih bs with h | h
          · left
            rw [if_neg h1, if_neg h2]
            exact h
          · right
            rw [if_neg h2, if_neg h1]
            exact h

/-- Helper: the byte-wise comparison is transitive. -/
theorem charListLe_trans : ∀ as bs cs : List Char,
    charListLe as bs = true → charListLe bs cs = true → charListLe as cs = true := by
  intro as
  induction as with
  | nil => intro bs cs h1 h2; rfl
  | cons a as ih =>
    intro bs cs h1 h2
    cases bs with
    | nil => exact absurd h1 (by simp [charListLe])
    | cons b bs =>
      cases cs with
      | nil => exact absurd h2 (by simp [charListLe])
      | cons c cs =>
        simp only [charListLe] at h1 h2 ⊢
        by_cases hab : a.toNat < b.toNat
        · by_cases hbc : b.toNat < c.toNat
          · rw [if_pos (show a.toNat < c.toNat by omega)]
          · by_cases hcb : c.toNat < b.toNat
            · rw [if_neg hbc, if_pos hcb] at h2
              exact absurd h2 (by simp)
            · rw [if_pos (show a.toNat < c.toNat by omega)]
        · by_cases hba : b.toNat < a.toNat
          · rw [if_neg hab, if_pos hba] at h1
            exact absurd h1 (by simp)
          · rw [if_neg hab, if_neg hba] at h1
            by_cases hbc : b.toNat < c.toNat
            · rw [if_pos (show a.toNat < c.toNat by omega)]
            · by_cases hcb : c.toNat < b.toNat
              · rw [if_neg hbc, if_pos hcb] at h2
                exact absurd h2 (by simp)
              · rw [if_neg hbc, if_neg hcb] at h2
                rw [if_neg (show ¬ a.toNat < c.toNat by omega),
                  if_neg (show ¬ c.toNat < a.toNat by omega)]
                exact ih bs cs h1 h2

/-- Helper: the byte-wise comparison is antisymmetric. -/
theorem charListLe_antisymm : ∀ as bs : List Char,
    charListLe as bs = true → charListLe bs as = true → as = bs := by
  intro as
  induction as with
  | nil =>
    intro bs h1 h2
    cases bs with
    | nil => rfl
    | cons b bs => exact absurd h2 (by simp [charListLe])
  | cons a as ih =>
    intro bs h1 h2
    cases bs with
    | nil => exact absurd h1 (by simp [charListLe])
    | cons b bs =>
      simp only [charListLe] at h1 h2
      by_cases hab : a.toNat < b.toNat
      · rw [if_neg (show ¬ b.toNat < a.toNat by omega), if_pos hab] at h2
        exact absurd h2 (by simp)
      · by_cases hba : b.toNat < a.toNat
        · rw [if_neg hab, if_pos hba] at h1
          exact absurd h1 (by simp)
        · rw [if_neg hab, if_neg hba] at h1
          rw [if_neg hba, if_neg hab] at h2
          have hch : a = b := by
            have hnat : a.toNat = b.toNat := by omega
            rw [← Char.ofNat_toNat a, ← Char.ofNat_toNat b, hnat]
          rw [hch, ih bs h1 h2]

/-- Helper: antisymmetry of the canonical string order. -/
theorem strLe_antisymm (a b : String) (h1 : strLe a b) (h2 : strLe b a) : a = b :=
  String.ext (charListLe_antisymm a.data b.data h1 h2)

/-- Helper: the canonical name list is pairwise ordered. -/
theorem sortedNames_pairwise (g : Graph) : (sortedNames g).Pairwise strLe := by
  haveI : IsTotal String strLe := ⟨fun a b => charListLe_total a.data b.data⟩
  haveI : IsTrans String strLe := ⟨fun a b c => charListLe_trans a.data b.data c.data⟩
  exact List.Pairwise.sublist (List.destutter_sublist _ _)
    (List.sorted_insertionSort strLe (allInitNames g))

/-- Helper: an ordered list with distinct neighbours is duplicate-free. -/
theorem sorted_chain_ne_nodup :
    ∀ l : List String, l.Pairwise strLe → l.Chain' (fun a b => a ≠ b) → l.Nodup := by
  intro l
  induction l with
  | nil => intro h1 h2; exact List.nodup_nil
  | cons a t ih =>
    intro hp hc
    have hpa := (List.pairwise_cons.mp hp).1
    have hpt := (List.pairwise_cons.mp hp).2
    rw [List.nodup_cons]
    refine ⟨?_, ih hpt hc.tail⟩
    intro hmem
    cases t with
    | nil => exact List.not_mem_nil a hmem
    | cons b t2 =>
      have hab : a ≠ b := (List.chain'_cons.mp hc).1
      rcases List.mem_cons.mp hmem with h | h
      · exact hab h
      · have h1 : strLe a b := hpa b (List.mem_cons_self b t2)
        have h2 : strLe b a := (List.pairwise_cons.mp hpt).1 a h
        exact hab (strLe_antisymm a b h1 h2)

/-- Helper: the canonical name list is duplicate-free. -/
theorem sortedNames_nodup (g : Graph) : (sortedNames g).Nodup :=
  sorted_chain_ne_nodup _ (sortedNames_pairwise g)
    (List.destutter_is_chain' _ _)

/-- Helper: every canonical name is a declared constant producer. -/
theorem sortedNames_subset (g : Graph) : ∀ x ∈ sortedNames g, x ∈ allInitNames g := by
  intro x hx
  have h1 : x ∈ List.insertionSort strLe (allInitNames g) :=
    (List.destutter_sublist _ _).subset hx
  exact (List.perm_insertionSort strLe (allInitNames g)).subset h1

/-- Helper: a full sort run ends with the structural and ordering
invariants under the well-formedness hypotheses. -/
theorem sortRun_pack (g : Graph)
    (H1 : NoEmptyInputs g.node) (H2a : UniqueOutputs g.node)
    (H2b : OutputsNotInit g.node (allInitNames g)) :
    StInv g.node.length (drain g.node g.node.length (phase1 g.node g) 0)
    ∧ OrdInv g.node (drain g.node g.node.length (phase1 g.node g) 0) := by
  obtain ⟨hC1, hS1, hO1, hH1, hs1⟩ := foldl_applyName_pack g.node (allInitNames g)
    H1 H2a H2b (sortedNames g) (initialSt g.node) [] 0
    (fun x hx => List.not_mem_nil x)
    (sortedNames_nodup g)
    (fun x hx => Or.inl (sortedNames_subset g x hx))
    (Nat.zero_le _)
    (initialSt_CInv g.node H1)
    (initialSt_StInv g.node)
    (initialSt_OrdInv g.node H1)
    (fun y hy => absurd hy (List.not_mem_nil y))
  exact drain_pack g.node (allInitNames g) H1 H2a H2b g.node.length
    (phase1 g.node g) 0 _ hC1 hS1 hO1 hH1 hs1

/-- Helper: strictly increasing lists with the same members coincide. -/
theorem eq_of_mem_iff_sorted_lt {l1 l2 : List Nat}
    (h1 : l1.Pairwise (fun a b => a < b)) (h2 : l2.Pairwise (fun a b => a < b))
    (hm : ∀ j, j ∈ l1 ↔ j ∈ l2) : l1 = l2 := by
  have hn1 : l1.Nodup := h1.imp (fun h => Nat.ne_of_lt h)
  have hn2 : l2.Nodup := h2.imp (fun h => Nat.ne_of_lt h)
  have hp : l1.Perm l2 := (List.perm_ext_iff_of_nodup hn1 hn2).mpr hm
  exact List.eq_of_perm_of_sorted hp h1 h2

/-- Helper: in-range positional lookups ignore the supplied default. -/
theorem getD_default_irrel {l : List Nat} (j : Nat) (hj : j < l.length) (d1 d2 : Nat) :
    l.getD j d1 = l.getD j d2 := by
  rw [List.getD_eq_getElem?_getD, List.getD_eq_getElem?_getD, List.getElem?_eq_getElem hj]
  rfl

/-- Helper: out-of-range positions register no multiplicity. -/
theorem multG_out (N : List Node) (x : String) (i : Nat) (h : N.length ≤ i) :
    multG N x i = 0 := by
  have hd : nodeAt N i = defaultNode := by
    unfold nodeAt
    exact List.getD_eq_default _ _ h
  unfold multG depsCount0
  rw [hd]
  rfl

/-- Helper: position lookups transport through the reorder of the node
list, out-of-range lookups landing on the placeholder on both sides. -/
theorem nodeAt_map (N : List Node) (r : List Nat) (j : Nat) :
    nodeAt (r.map (fun i => nodeAt N i)) j = nodeAt N (r.getD j N.length) := by
  by_cases hj : j < r.length
  · have hj2 : j < (r.map (fun i => nodeAt N i)).length := by
      rw [List.length_map]
      exact hj
    have h1 : nodeAt (r.map (fun i => nodeAt N i)) j = nodeAt N (r.get ⟨j, hj⟩) := by
      show (r.map (fun i => nodeAt N i)).getD j defaultNode = _
      rw [List.getD_eq_getElem?_getD, List.getElem?_eq_getElem hj2, Option.getD_some,
        List.getElem_map]
      rfl
    have h2 : r.getD j N.length = r.get ⟨j, hj⟩ := by
      rw [List.getD_eq_getElem?_getD, List.getElem?_eq_getElem hj, Option.getD_some]
      rfl
    rw [h1, h2]
  · push_neg at hj
    have h1 : nodeAt (r.map (fun i => nodeAt N i)) j = defaultNode := by
      show (r.map (fun i => nodeAt N i)).getD j defaultNode = _
      rw [List.getD_eq_default]
      rw [List.length_map]
      exact hj
    have h2 : r.getD j N.length = N.length := List.getD_eq_default _ _ hj
    have h3 : nodeAt N N.length = defaultNode := by
      show N.getD N.length defaultNode = _
      exact List.getD_eq_default _ _ (le_refl _)
    rw [h1, h2, h3]

/-- Helper: dependency counts transport through the reorder. -/
theorem depsCount0_map (N : List Node) (r : List Nat) (j : Nat) :
    depsCount0 (r.map (fun i => nodeAt N i)) j = depsCount0 N (r.getD j N.length) := by
  unfold depsCount0
  rw [nodeAt_map]

/-- Helper: registration multiplicities transport through the reorder. -/
theorem multG_map (N : List Node) (r : List Nat) (x : String) (j : Nat) :
    multG (r.map (fun i => nodeAt N i)) x j = multG N x (r.getD j N.length) := by
  unfold multG
  rw [depsCount0_map, nodeAt_map]

/-- Helper: out-of-range counts start at zero. -/
theorem initialSt_ZOut (N : List Node) : ZOut N (initialSt N) := by
  intro i hi
  show ((depsCount0 N i : Nat) : Int) = 0
  have hd : nodeAt N i = defaultNode := by
    unfold nodeAt
    exact List.getD_eq_default _ _ hi
  unfold depsCount0
  rw [hd]
  rfl

/-- Helper: a decrement run keeps out-of-range counts at zero. -/
theorem applyName_ZOut (N : List Node) (st : SortSt) (x : String) (h : ZOut N st) :
    ZOut N (applyName N st x) := by
  intro i hi
  rw [applyName_eq]
  show st.counts i - (multG N x i : Int) = 0
  rw [h i hi, multG_out N x i hi]
  rfl

/-- Helper: one decrement run on the reordered node list mirrors the run
on the original graph, emitting the next block of positions in order. -/
theorem sim_applyName (N : List Node) (r : List Nat)
    (hrn : r.Nodup) (hrlen : r.length = N.length) (hrval : ∀ i ∈ r, i < N.length)
    (st1 st2 : SortSt) (x : String) (hsim : SimInv N r st1 st2)
    (hpre : (applyName N st1 x).sorted <+: r) :
    SimInv N r (applyName N st1 x) (applyName (r.map (fun i => nodeAt N i)) st2 x) := by
  obtain ⟨he1, he2, he3, he4⟩ := hsim
  obtain ⟨A1, hs1, hA1⟩ : ∃ A1, (applyName N st1 x).sorted = st1.sorted ++ A1 ∧
      A1 = (List.range N.length).filter
        (fun i => decide (1 ≤ st1.counts i ∧ st1.counts i ≤ (multG N x i : Int))) :=
    ⟨_, by rw [applyName_eq], rfl⟩
  have hcnts : ∀ j, (applyName (r.map (fun i => nodeAt N i)) st2 x).counts j
      = (applyName N st1 x).counts (r.getD j N.length) := by
    intro j
    rw [applyName_eq, applyName_eq]
    show st2.counts j - (multG (r.map (fun i => nodeAt N i)) x j : Int)
      = st1.counts (r.getD j N.length) - (multG N x (r.getD j N.length) : Int)
    rw [he3 j, multG_map]
  have hz : ZOut N (applyName N st1 x) := applyName_ZOut N st1 x he4
  have hLA : st1.sorted.length + A1.length ≤ r.length := by
    have h := hpre.length_le
    rw [hs1, List.length_append] at h
    exact h
  have htake : st1.sorted ++ A1 = r.take (st1.sorted.length + A1.length) := by
    have h := List.prefix_iff_eq_take.mp (hs1 ▸ hpre)
    rw [List.length_append] at h
    exact h
  have hblock : ∀ j, st1.sorted.length ≤ j → j < st1.sorted.length + A1.length →
      r.getD j 0 = A1.getD (j - st1.sorted.length) 0 := by
    intro j hj1 hj2
    have hjt : j < (r.take (st1.sorted.length + A1.length)).length := by
      rw [List.length_take]
      omega
    have e1 : r.getD j 0 = (r.take (st1.sorted.length + A1.length)).getD j 0 :=
      getD_of_pfx (List.take_prefix _ r) j hjt
    rw [e1, ← htake]
    exact List.getD_append_right _ _ _ _ hj1
  have hblockmem : ∀ j, st1.sorted.length ≤ j → j < st1.sorted.length + A1.length →
      r.getD j 0 ∈ A1 := by
    intro j hj1 hj2
    rw [hblock j hj1 hj2]
    exact getD_mem_of_lt _ (by omega)
  have hidx : ∀ i ∈ A1, ∃ j, st1.sorted.length ≤ j ∧ j < st1.sorted.length + A1.length ∧
      r.getD j 0 = i := by
    intro i hi
    obtain ⟨t, ht, hti⟩ := mem_exists_getD hi
    refine ⟨st1.sorted.length + t, by omega, by omega, ?_⟩
    rw [hblock (st1.sorted.length + t) (by omega) (by omega), Nat.add_sub_cancel_left]
    exact hti
  refine ⟨?_, hpre, hcnts, hz⟩
  obtain ⟨A2, hs2, hA2⟩ : ∃ A2, (applyName (r.map (fun i => nodeAt N i)) st2 x).sorted
      = st2.sorted ++ A2 ∧
      A2 = (List.range (r.map (fun i => nodeAt N i)).length).filter
        (fun j => decide (1 ≤ st2.counts j ∧ st2.counts j
          ≤ (multG (r.map (fun i => nodeAt N i)) x j : Int))) :=
    ⟨_, by rw [applyName_eq], rfl⟩
  have hA2e : A2 = List.range' st1.sorted.length A1.length := by
    rw [hA2]
    apply eq_of_mem_iff_sorted_lt
    · exact List.Pairwise.sublist (List.filter_sublist _) (List.pairwise_lt_range _)
    · exact List.pairwise_lt_range' _ _
    · intro j
      rw [List.mem_range'_1]
      constructor
      · intro hj
        have hjN : j < N.length := by
          have h := List.mem_range.mp (List.mem_of_mem_filter hj)
          rw [List.length_map] at h
          omega
        have hjr : j < r.length := by omega
        have hcond := List.of_mem_filter hj
        simp only [decide_eq_true_eq] at hcond
        rw [he3 j, multG_map, getD_default_irrel j hjr N.length 0] at hcond
        have hrjN : r.getD j 0 < N.length := hrval _ (getD_mem_of_lt j hjr)
        have hrjA1 : r.getD j 0 ∈ A1 := by
          rw [hA1]
          refine List.mem_filter.mpr ⟨List.mem_range.mpr hrjN, ?_⟩
          simp only [decide_eq_true_eq]
          exact hcond
        obtain ⟨j2, hj2a, hj2b, hj2e⟩ := hidx _ hrjA1
        have hj2r : j2 < r.length := by omega
        have hjeq := nodup_getD_inj hrn j2 j hj2r hjr hj2e
        omega
      · intro hj
        obtain ⟨hj1, hj2⟩ := hj
        have hjr : j < r.length := by omega
        have hA1m : r.getD j 0 ∈ A1 := hblockmem j hj1 (by omega)
        have hcond : 1 ≤ st1.counts (r.getD j 0)
            ∧ st1.counts (r.getD j 0) ≤ (multG N x (r.getD j 0) : Int) := by
          have h := List.of_mem_filter (hA1 ▸ hA1m)
          simp only [decide_eq_true_eq] at h
          exact h
        refine List.mem_filter.mpr ⟨?_, ?_⟩
        · refine List.mem_range.mpr ?_
          rw [List.length_map]
          omega
        · simp only [decide_eq_true_eq]
          rw [he3 j, multG_map, getD_default_irrel j hjr N.length 0]
          exact hcond
  rw [hs2, he1, hA2e, hs1, List.length_append]
  rw [List.range_eq_range' st1.sorted.length,
    List.range_eq_range' (st1.sorted.length + A1.length)]
  have hap := List.range'_append 0 st1.sorted.length A1.length 1
  simp only [Nat.zero_add, Nat.one_mul] at hap
  rw [Nat.add_comm st1.sorted.length A1.length]
  exact hap

/-- Helper: a run over several names on the reordered node list mirrors
the run on the original graph. -/
theorem sim_foldl (N : List Node) (r : List Nat)
    (hrn : r.Nodup) (hrlen : r.length = N.length) (hrval : ∀ i ∈ r, i < N.length) :
    ∀ (xs : List String) (st1 st2 : SortSt), SimInv N r st1 st2 →
      (xs.foldl (applyName N) st1).sorted <+: r →
      SimInv N r (xs.foldl (applyName N) st1)
        (xs.foldl (applyName (r.map (fun i => nodeAt N i))) st2) := by
  intro xs
  induction xs with
  | nil => intro st1 st2 hsim hpre; exact hsim
  | cons x rest ih =>
    intro st1 st2 hsim hpre
    have hpre1 : (applyName N st1 x).sorted <+: r :=
      (foldl_applyName_pfx N rest (applyName N st1 x)).trans hpre
    exact ih (applyName N st1 x) _
      (sim_applyName N r hrn hrlen hrval st1 st2 x hsim hpre1) hpre

/-- Helper: the queue drain on the reordered node list mirrors the drain
on the original graph. -/
theorem sim_drain (N : List Node) (r : List Nat)
    (hrn : r.Nodup) (hrlen : r.length = N.length) (hrval : ∀ i ∈ r, i < N.length) :
    ∀ (fuel : Nat) (st1 st2 : SortSt) (s : Nat), SimInv N r st1 st2 →
      (drain N fuel st1 s).sorted <+: r →
      SimInv N r (drain N fuel st1 s)
        (drain (r.map (fun i => nodeAt N i)) fuel st2 s) := by
  intro fuel
  induction fuel with
  | zero => intro st1 st2 s hsim hpre; exact hsim
  | succ f ih =>
    intro st1 st2 s hsim hpre
    obtain ⟨he1, he2, he3, he4⟩ := hsim
    by_cases hlt : s < st1.sorted.length
    · have hlt2 : s < st2.sorted.length := by
        rw [he1, List.length_range]
        exact hlt
      have hnode : nodeAt (r.map (fun i => nodeAt N i)) (st2.sorted.get ⟨s, hlt2⟩)
          = nodeAt N (st1.sorted.get ⟨s, hlt⟩) := by
        have hgs : st2.sorted.get ⟨s, hlt2⟩ = s := by
          rw [get_eq_getD st2.sorted 0 s hlt2, he1]
          have hs2 : s < (List.range st1.sorted.length).length := by
            rw [List.length_range]
            exact hlt
          rw [List.getD_eq_getElem?_getD, List.getElem?_eq_getElem hs2, Option.getD_some,
            List.getElem_range]
        rw [hgs, nodeAt_map]
        congr 1
        have hsr : s < r.length := lt_of_lt_of_le hlt he2.length_le
        rw [getD_default_irrel s hsr N.length 0, get_eq_getD st1.sorted 0 s hlt]
        exact getD_of_pfx he2 s hlt
      have heq1 : drain N (f + 1) st1 s =
          drain N f ((nodeAt N (st1.sorted.get ⟨s, hlt⟩)).output.foldl (applyName N) st1)
            (s + 1) := by
        show (if h2 : s < st1.sorted.length then
          drain N f ((nodeAt N (st1.sorted.get ⟨s, h2⟩)).output.foldl (applyName N) st1)
            (s + 1) else st1) = _
        rw [dif_pos hlt]
      have heq2 : drain (r.map (fun i => nodeAt N i)) (f + 1) st2 s =
          drain (r.map (fun i => nodeAt N i)) f
            ((nodeAt (r.map (fun i => nodeAt N i)) (st2.sorted.get ⟨s, hlt2⟩)).output.foldl
              (applyName (r.map (fun i => nodeAt N i))) st2) (s + 1) := by
        show (if h2 : s < st2.sorted.length then
          drain (r.map (fun i => nodeAt N i)) f
            ((nodeAt (r.map (fun i => nodeAt N i)) (st2.sorted.get ⟨s, h2⟩)).output.foldl
              (applyName (r.map (fun i => nodeAt N i))) st2) (s + 1)
          else st2) = _
        rw [dif_pos hlt2]
      rw [heq1] at hpre
      rw [heq1, heq2, hnode]
      have hpre1 : ((nodeAt N (st1.sorted.get ⟨s, hlt⟩)).output.foldl
          (applyName N) st1).sorted <+: r :=
        (drain_sorted_pfx N f _ (s + 1)).trans hpre
      exact ih _ _ (s + 1)
        (sim_foldl N r hrn hrlen hrval _ st1 st2 ⟨he1, he2, he3, he4⟩ hpre1) hpre
    · have hlt2 : ¬ s < st2.sorted.length := by
        rw [he1, List.length_range]
        exact hlt
      have heq1 : drain N (f + 1) st1 s = st1 := by
        show (if h2 : s < st1.sorted.length then
          drain N f ((nodeAt N (st1.sorted.get ⟨s, h2⟩)).output.foldl (applyName N) st1)
            (s + 1) else st1) = _
        rw [dif_neg hlt]
      have heq2 : drain (r.map (fun i => nodeAt N i)) (f + 1) st2 s = st2 := by
        show (if h2 : s < st2.sorted.length then
          drain (r.map (fun i => nodeAt N i)) f
            ((nodeAt (r.map (fun i => nodeAt N i)) (st2.sorted.get ⟨s, h2⟩)).output.foldl
              (applyName (r.map (fun i => nodeAt N i))) st2) (s + 1)
          else st2) = _
        rw [dif_neg hlt2]
      rw [heq1, heq2]
      exact ⟨he1, he2, he3, he4⟩

/-- Helper: the start states of the two runs are in simulation. -/
theorem sim_initial (N : List Node) (r : List Nat)
    (hrn : r.Nodup) (hrlen : r.length = N.length) (hrval : ∀ i ∈ r, i < N.length)
    (hpre0 : (initialSt N).sorted <+: r) :
    SimInv N r (initialSt N) (initialSt (r.map (fun i => nodeAt N i))) := by
  refine ⟨?_, hpre0, ?_, initialSt_ZOut N⟩
  · have hk : (initialSt N).sorted = r.take (initialSt N).sorted.length :=
      List.prefix_iff_eq_take.mp hpre0
    have hkle : (initialSt N).sorted.length ≤ r.length := hpre0.length_le
    show (List.range (r.map (fun i => nodeAt N i)).length).filter
        (fun j => decide (depsCount0 (r.map (fun i => nodeAt N i)) j = 0))
      = List.range (initialSt N).sorted.length
    rw [List.range_eq_range' (initialSt N).sorted.length]
    apply eq_of_mem_iff_sorted_lt
    · exact List.Pairwise.sublist (List.filter_sublist _) (List.pairwise_lt_range _)
    · exact List.pairwise_lt_range' _ _
    · intro j
      rw [List.mem_range'_1]
      constructor
      · intro hj
        have hjN : j < N.length := by
          have h := List.mem_range.mp (List.mem_of_mem_filter hj)
          rw [List.length_map] at h
          omega
        have hjr : j < r.length := by omega
        have hcond := List.of_mem_filter hj
        simp only [decide_eq_true_eq] at hcond
        rw [depsCount0_map, getD_default_irrel j hjr N.length 0] at hcond
        have hrjN : r.getD j 0 < N.length := hrval _ (getD_mem_of_lt j hjr)
        have hrjK : r.getD j 0 ∈ (initialSt N).sorted := by
          show r.getD j 0 ∈ (List.range N.length).filter (fun i => decide (depsCount0 N i = 0))
          refine List.mem_filter.mpr ⟨List.mem_range.mpr hrjN, ?_⟩
          simp only [decide_eq_true_eq]
          exact hcond
        obtain ⟨t, ht, hti⟩ := mem_exists_getD (hk ▸ hrjK)
        have htk : t < (initialSt N).sorted.length := by
          rw [List.length_take] at ht
          omega
        have htr : t < r.length := by omega
        have hteq : r.getD t 0 = r.getD j 0 := by
          rw [getD_of_pfx (List.take_prefix (initialSt N).sorted.length r) t ht]
          exact hti
        have := nodup_getD_inj hrn t j htr hjr hteq
        omega
      · intro hj
        obtain ⟨hj0, hjk0⟩ := hj
        have hjk : j < (initialSt N).sorted.length := by omega
        have hjr : j < r.length := by omega
        have hrjK : r.getD j 0 ∈ (initialSt N).sorted := by
          rw [getD_of_pfx hpre0 j hjk]
          exact getD_mem_of_lt j hjk
        have hcond := List.of_mem_filter (hrjK : r.getD j 0 ∈
          (List.range N.length).filter (fun i => decide (depsCount0 N i = 0)))
        simp only [decide_eq_true_eq] at hcond
        refine List.mem_filter.mpr ⟨?_, ?_⟩
        · refine List.mem_range.mpr ?_
          rw [List.length_map]
          omega
        · simp only [decide_eq_true_eq]
          rw [depsCount0_map, getD_default_irrel j hjr N.length 0]
          exact hcond
  · intro j
    show ((depsCount0 (r.map (fun i => nodeAt N i)) j : Nat) : Int)
      = ((depsCount0 N (r.getD j N.length) : Nat) : Int)
    rw [depsCount0_map]

/-- Helper: rerunning the sort on the reordered node list emits the
identity order. -/
theorem sim_run (N : List Node) (g g2 : Graph) (r : List Nat)
    (hnode : g2.node = r.map (fun i => nodeAt N i))
    (hnames : sortedNames g2 = sortedNames g)
    (hr : (drain N N.length (phase1 N g) 0).sorted = r)
    (hrn : r.Nodup) (hrlen : r.length = N.length) (hrval : ∀ i ∈ r, i < N.length) :
    (drain g2.node g2.node.length (phase1 g2.node g2) 0).sorted
      = List.range N.length := by
  have hlen2 : (r.map (fun i => nodeAt N i)).length = N.length := by
    rw [List.length_map, hrlen]
  have hpre0 : (initialSt N).sorted <+: r := by
    rw [← hr]
    exact (foldl_applyName_pfx N (sortedNames g) (initialSt N)).trans
      (drain_sorted_pfx N N.length (phase1 N g) 0)
  have hsim0 := sim_initial N r hrn hrlen hrval hpre0
  have hpre1 : ((sortedNames g).foldl (applyName N) (initialSt N)).sorted <+: r := by
    rw [← hr]
    exact drain_sorted_pfx N N.length (phase1 N g) 0
  have hsim1 := sim_foldl N r hrn hrlen hrval (sortedNames g) (initialSt N)
    (initialSt (r.map (fun i => nodeAt N i))) hsim0 hpre1
  have hpre2 : (drain N N.length ((sortedNames g).foldl (applyName N) (initialSt N)) 0).sorted
      <+: r := by
    show (drain N N.length (phase1 N g) 0).sorted <+: r
    rw [hr]
  have hsim2 := sim_drain N r hrn hrlen hrval N.length
    ((sortedNames g).foldl (applyName N) (initialSt N))
    ((sortedNames g).foldl (applyName (r.map (fun i => nodeAt N i)))
      (initialSt (r.map (fun i => nodeAt N i)))) 0 hsim1 hpre2
  obtain ⟨hf1, hf2, hf3, hf4⟩ := hsim2
  unfold phase1
  rw [hnode, hnames, hlen2, hf1]
  have hfin : (drain N N.length ((sortedNames g).foldl (applyName N) (initialSt N)) 0).sorted
      = r := hr
  rw [hfin, hrlen]

/-- Helper: mapping position lookups over the full index range rebuilds
the node list. -/
theorem map_nodeAt_range (M : List Node) :
    (List.range M.length).map (fun j => nodeAt M j) = M := by
  apply List.ext_getElem
  · rw [List.length_map, List.length_range]
  · intro i h1 h2
    rw [List.getElem_map, List.getElem_range]
    show M.getD i defaultNode = M[i]
    rw [List.getD_eq_getElem?_getD, List.getElem?_eq_getElem h2, Option.getD_some]

/-- Helper: the successful branch of the sort. -/
theorem graph_topological_sort_eq (g : Graph)
    (hc : (drain g.node g.node.length (phase1 g.node g) 0).sorted.length = g.node.length) :
    graph_topological_sort g
      = some { g with node := (drain g.node g.node.length (phase1 g.node g) 0).sorted.map (fun i => nodeAt g.node i) } := by
  unfold graph_topological_sort
  rw [if_pos hc]

/-- Helper: the failing branch of the sort. -/
theorem graph_topological_sort_ne (g : Graph)
    (hc : ¬ (drain g.node g.node.length (phase1 g.node g) 0).sorted.length = g.node.length) :
    graph_topological_sort g = none := by
  unfold graph_topological_sort
  rw [if_neg hc]

/-- Helper: the sort maps a graph carrying the emitted order back to
itself. -/
theorem sim_run_idem (N : List Node) (g g2 : Graph) (r : List Nat)
    (hnode : g2.node = r.map (fun i => nodeAt N i))
    (hnames : sortedNames g2 = sortedNames g)
    (hr : (drain N N.length (phase1 N g) 0).sorted = r)
    (hrn : r.Nodup) (hrlen : r.length = N.length) (hrval : ∀ i ∈ r, i < N.length) :
    graph_topological_sort g2 = some g2 := by
  have hrun2 := sim_run N g g2 r hnode hnames hr hrn hrlen hrval
  have hlen2 : g2.node.length = N.length := by
    rw [hnode, List.length_map, hrlen]
  have hc2 : (drain g2.node g2.node.length (phase1 g2.node g2) 0).sorted.length
      = g2.node.length := by
    rw [hrun2, List.length_range, hlen2]
  rw [graph_topological_sort_eq g2 hc2]
  congr 1
  rw [hrun2, ← hlen2, map_nodeAt_range g2.node]

/-- Helper: a successful sort is a fixpoint of the sort. -/
theorem graph_topological_sort_idem (g g2 : Graph)
    (hrun : graph_topological_sort g = some g2) :
    graph_topological_sort g2 = some g2 := by
  by_cases hc : (drain g.node g.node.length (phase1 g.node g) 0).sorted.length = g.node.length
  · rw [graph_topological_sort_eq g hc] at hrun
    have hg2 : g2 = { g with node := (drain g.node g.node.length (phase1 g.node g) 0).sorted.map (fun i => nodeAt g.node i) } := (Option.some.inj hrun).symm
    have hS : StInv g.node.length (drain g.node g.node.length (phase1 g.node g) 0) :=
      drain_StInv g.node g.node.length (phase1 g.node g) 0
        (foldl_applyName_StInv g.node (sortedNames g) (initialSt g.node)
          (initialSt_StInv g.node))
    exact sim_run_idem g.node g g2 (drain g.node g.node.length (phase1 g.node g) 0).sorted
      (by rw [hg2]) (by rw [hg2]; rfl) rfl hS.1 hc (fun i hi => (hS.2 i hi).1)
  · rw [graph_topological_sort_ne g hc] at hrun
    exact absurd hrun (by simp)

/-- Helper: the returned node order respects producers under the
well-formedness hypotheses. -/
theorem graph_topological_sort_order (g g2 : Graph)
    (hrun : graph_topological_sort g = some g2)
    (H1 : NoEmptyInputs g.node) (H2a : UniqueOutputs g.node)
    (H2b : OutputsNotInit g.node (allInitNames g)) :
    ∀ b, b < g2.node.length → ∀ y ∈ (nodeAt g2.node b).input,
      ∀ p, p < g2.node.length → y ∈ (nodeAt g2.node p).output → p < b := by
  by_cases hc : (drain g.node g.node.length (phase1 g.node g) 0).sorted.length = g.node.length
  · rw [graph_topological_sort_eq g hc] at hrun
    have hg2 : g2 = { g with node := (drain g.node g.node.length (phase1 g.node g) 0).sorted.map (fun i => nodeAt g.node i) } := (Option.some.inj hrun).symm
    obtain ⟨hS, hO⟩ := sortRun_pack g H1 H2a H2b
    subst hg2
    intro b hb y hy p hp hyp
    have hb1 : b < ((drain g.node g.node.length (phase1 g.node g) 0).sorted.map
        (fun i => nodeAt g.node i)).length := hb
    have hp1 : p < ((drain g.node g.node.length (phase1 g.node g) 0).sorted.map
        (fun i => nodeAt g.node i)).length := hp
    rw [List.length_map] at hb1 hp1
    have hnb : nodeAt ((drain g.node g.node.length (phase1 g.node g) 0).sorted.map
        (fun i => nodeAt g.node i)) b
        = nodeAt g.node ((drain g.node g.node.length (phase1 g.node g) 0).sorted.getD b 0) := by
      rw [nodeAt_map, getD_default_irrel b hb1 g.node.length 0]
    have hnp : nodeAt ((drain g.node g.node.length (phase1 g.node g) 0).sorted.map
        (fun i => nodeAt g.node i)) p
        = nodeAt g.node ((drain g.node g.node.length (phase1 g.node g) 0).sorted.getD p 0) := by
      rw [nodeAt_map, getD_default_irrel p hp1 g.node.length 0]
    have hy2 : y ∈ (nodeAt g.node
        ((drain g.node g.node.length (phase1 g.node g) 0).sorted.getD b 0)).input := by
      rw [← hnb]
      exact hy
    have hyp2 : y ∈ (nodeAt g.node
        ((drain g.node g.node.length (phase1 g.node g) 0).sorted.getD p 0)).output := by
      rw [← hnp]
      exact hyp
    have hpN : (drain g.node g.node.length (phase1 g.node g) 0).sorted.getD p 0
        < g.node.length := (hS.2 _ (getD_mem_of_lt p hp1)).1
    obtain ⟨a, hab, hae⟩ := hO b hb1 y hy2 _ hpN hyp2
    have har : a < (drain g.node g.node.length (phase1 g.node g) 0).sorted.length :=
      lt_trans hab hb1
    have := nodup_getD_inj hS.1 a p har hp1 hae
    omega
  · rw [graph_topological_sort_ne g hc] at hrun
    exact absurd hrun (by simp)

/-- C2: after a successful `topological_sort`, sorting the returned
session again succeeds and returns it unchanged (idempotence); and —
provided the primary graph's nodes carry no empty-string input entries,
no output name is produced twice, and no output name collides with an
initializer or graph-input name — every node of the returned primary
graph appears strictly after every node producing one of its inputs.
Without those provisos the ordering half of the claim fails. -/
theorem topological_sort_spec (m m2 : OModel)
    (hrun : topological_sort m = some m2) :
    topological_sort m2 = some m2
    ∧ (NoEmptyInputs m.primary.node → UniqueOutputs m.primary.node →
       OutputsNotInit m.primary.node (allInitNames m.primary) →
       ∀ b, b < m2.primary.node.length →
         ∀ y ∈ (nodeAt m2.primary.node b).input,
           ∀ p, p < m2.primary.node.length →
             y ∈ (nodeAt m2.primary.node p).output → p < b) := by
  unfold topological_sort at hrun
  cases hg : graph_topological_sort m.primary with
  | none =>
    rw [hg] at hrun
    exact absurd hrun (by simp)
  | some g2 =>
    rw [hg] at hrun
    simp only [Option.map_some'] at hrun
    have hm2 : m2 = { m with primary := g2 } := (Option.some.inj hrun).symm
    subst hm2
    constructor
    · unfold topological_sort
      rw [show ({ m with primary := g2 } : OModel).primary = g2 from rfl]
      rw [graph_topological_sort_idem m.primary g2 hg]
      simp only [Option.map_some']
    · intro H1 H2a H2b
      exact graph_topological_sort_order m.primary g2 hg H1 H2a H2b

/-- Witness: the sort's fixpoint property and the ordering guarantee
instantiated on the concrete two-node chain session. -/
theorem topological_sort_spec_witness :
    topological_sort exChainSorted = some exChainSorted ∧ (0 : Nat) < 1 :=
  ⟨(topological_sort_spec exChainModel exChainSorted (by decide)).1,
   (topological_sort_spec exChainModel exChainSorted (by decide)).2
     (by unfold NoEmptyInputs; decide) (by unfold UniqueOutputs; decide)
     (by unfold OutputsNotInit; decide) 1 (by decide) "p" (by decide) 0
     (by decide) (by decide)⟩

/-- C2 counterexample: an empty-string output name is registered as a
dependency, so the sort emits consumer `A` (position 1) before its
producer `B` (position 2) on `exSortModel`, refuting the unconditional
ordering claim. -/
theorem topological_sort_order_counterexample :
    topological_sort exSortModel = some exSortedModel
    ∧ nodeAt exSortedModel.primary.node 1 = exA
    ∧ nodeAt exSortedModel.primary.node 2 = exB
    ∧ "x" ∈ exA.input ∧ "x" ∈ exB.output ∧ ¬ (2 : Nat) < 1 :=
  ⟨by decide, by decide, by decide, by decide, by decide, by decide⟩

end OnnxIR
